import Mathlib

/-!
Verification development for the eslint-plugin-convex-auth rule engine
(src/eslint/index.js) and the authenticated wrapper factory (src/src/index.ts).

The embedding models the ESLint host as a single pre-order traversal of a
file syntax tree.  Every node is visited once, in document order, parents
before children; on each visit the per-rule handler for the node kind runs,
reading and updating the per-file state and possibly emitting diagnostics.
Nodes are identified by their path from the root (the list of child indices),
which plays the role of object identity of AST nodes in the JavaScript code.
-/

namespace ConvexAuth

/-! ### String helpers

Model the JavaScript string operations used by the plugin.
The function strHasSub models String.prototype.includes and
strClosesWith models String.prototype.endsWith. -/

/-- Boolean test that the first list is an initial segment of the second. -/
def charsLead : List Char → List Char → Bool
  | [], _ => true
  | _ :: _, [] => false
  | p :: ps, c :: cs => p == c && charsLead ps cs

/-- Boolean test that the pattern occurs as a contiguous segment of the list. -/
def charsSub (pat : List Char) : List Char → Bool
  | [] => charsLead pat []
  | c :: rest => charsLead pat (c :: rest) || charsSub pat rest

/-- Models the JavaScript expression s.includes(pat). -/
def strHasSub (s pat : String) : Bool :=
  charsSub pat.data s.data

/-- Models the JavaScript expression s.endsWith(pat). -/
def strClosesWith (s pat : String) : Bool :=
  s.data.drop (s.data.length - pat.data.length) == pat.data

/-! ### Syntax tree -/

/-- Import specifier of an import declaration.  The importSpecifier
constructor models an ESTree ImportSpecifier node with its local and its
original names; otherSpecifier models default and namespace specifiers,
which the plugin ignores. -/
inductive ImportSpec where
  | importSpecifier (localName : String) (importedName : String)
  | otherSpecifier (localName : String)
deriving DecidableEq, Repr

/-- Key of an object-literal property.  The plugin only ever matches keys
whose node type is Identifier (src/eslint/index.js line 167), so a
string-literal key is kept distinct. -/
inductive PropKey where
  | identKey (name : String)
  | litKey (value : String)
  | otherKey
deriving DecidableEq, Repr

mutual
/-- Syntax-tree nodes, covering the node kinds the plugin inspects.
The constructor other packs any further node kind together with its child
subtrees: the plugin treats every unrecognized kind as transparent, so only
the children matter.  Statements (blocks, returns, declarations, await)
are all modelled by other. -/
inductive Ast where
  | ident (name : String)
  | strLit (value : String)
  | call (callee : Ast) (args : List Ast)
  | member (obj : Ast) (prop : Ast)
  | objectLit (props : List ObjProp)
  | arrowFn (body : List Ast)
  | funExpr (body : List Ast)
  | importDecl (source : String) (specifiers : List ImportSpec)
  | other (children : List Ast)

/-- Object-literal member: a keyed property or a spread element. -/
inductive ObjProp where
  | property (key : PropKey) (value : Ast)
  | spread (arg : Ast)
end

/-- One visited node of a file pass.  The path is the list of child indices
from the root forest and serves as the identity of the node.  The encl field
lists the paths of the strictly enclosing function literals, innermost
first: it is the lexical scope chain the MemberExpression handler walks
(src/eslint/index.js lines 217 to 231).  The isCalleeOfCall flag records
that the immediate parent is a CallExpression whose callee is this node;
in a tree the check parent.callee === node of the source (lines 204 to 213)
can only succeed at the immediate parent, because the callee of any farther
ancestor is a different node of the tree. -/
structure Item where
  path : List Nat
  node : Ast
  encl : List (List Nat)
  isCalleeOfCall : Bool

mutual
/-- Pre-order enumeration of the subtree rooted at a node placed at path p.
Child indices: a call stores its callee at index 0 and its arguments from
index 1; a member stores its object at 0 and its property at 1; an object
literal stores the value (or spread argument) of its j-th property at
index j; function bodies and other containers index their children from 0. -/
def go (p : List Nat) (encl : List (List Nat)) (isCallee : Bool) : Ast → List Item
  | .ident s => [⟨p, .ident s, encl, isCallee⟩]
  | .strLit s => [⟨p, .strLit s, encl, isCallee⟩]
  | .call c args =>
      ⟨p, .call c args, encl, isCallee⟩ ::
        (go (p ++ [0]) encl true c ++ goList p encl 1 args)
  | .member o pr =>
      ⟨p, .member o pr, encl, isCallee⟩ ::
        (go (p ++ [0]) encl false o ++ go (p ++ [1]) encl false pr)
  | .objectLit props =>
      ⟨p, .objectLit props, encl, isCallee⟩ :: goProps p encl 0 props
  | .arrowFn body =>
      ⟨p, .arrowFn body, encl, isCallee⟩ :: goList p (p :: encl) 0 body
  | .funExpr body =>
      ⟨p, .funExpr body, encl, isCallee⟩ :: goList p (p :: encl) 0 body
  | .importDecl s sp => [⟨p, .importDecl s sp, encl, isCallee⟩]
  | .other cs =>
      ⟨p, .other cs, encl, isCallee⟩ :: goList p encl 0 cs

/-- Pre-order enumeration of a list of sibling subtrees whose first element
sits at child index i of the node at path p. -/
def goList (p : List Nat) (encl : List (List Nat)) (i : Nat) : List Ast → List Item
  | [] => []
  | a :: rest => go (p ++ [i]) encl false a ++ goList p encl (i + 1) rest

/-- Pre-order enumeration of the children of an object literal at path p,
starting at property index j. -/
def goProps (p : List Nat) (encl : List (List Nat)) (j : Nat) : List ObjProp → List Item
  | [] => []
  | .property _ v :: rest => go (p ++ [j]) encl false v ++ goProps p encl (j + 1) rest
  | .spread a :: rest => go (p ++ [j]) encl false a ++ goProps p encl (j + 1) rest
end

/-- Pre-order item list of a whole file, given as its forest of top-level
nodes. -/
def preorder (file : List Ast) : List Item :=
  goList [] [] 0 file

/-! ### Diagnostics and the host run -/

/-- Message identifiers of the two rules (src/eslint/index.js lines 21 to 26
and 102 to 105). -/
inductive MessageId where
  | useAuthenticatedQuery
  | useAuthenticatedMutation
  | useContextIdentity
deriving DecidableEq, Repr

/-- Diagnostic reported through context.report: a message identifier and the
path of the node it is attached to. -/
structure Diagnostic where
  messageId : MessageId
  loc : List Nat
deriving DecidableEq, Repr

/-- Run a per-node handler over a list of visited items, threading the
per-file state and concatenating the emitted diagnostics in visitation
order.  This models the ESLint host dispatch loop. -/
def runOn {σ : Type} (h : σ → Item → σ × List Diagnostic) (s : σ) :
    List Item → σ × List Diagnostic
  | [] => (s, [])
  | it :: rest =>
      let r := h s it
      let rr := runOn h r.1 rest
      (rr.1, r.2 ++ rr.2)

/-- State of a run just before the item at position j is visited: the state
obtained by handling the first j items. -/
def stateAt {σ : Type} (h : σ → Item → σ × List Diagnostic) (s : σ)
    (items : List Item) (j : Nat) : σ :=
  (runOn h s (items.take j)).1

/-- Exemption predicate shared by both rules (src/eslint/index.js lines
34 to 36 and 113 to 115): the file path ends with the designated
implementation file under either path-separator convention. -/
def isAuthFile (filename : String) : Bool :=
  strClosesWith filename "convex/auth.ts" || strClosesWith filename "convex\\auth.ts"

/-! ### Rule A: no-direct-query-mutation -/

/-- Alias table of rule A (importsFromGeneratedServer in the source, line
44): a map from local binding name to imported canonical name.  A JavaScript
Map is modelled as an association list where insertion prepends, so that
lookup, which returns the first match, realizes last-write-wins. -/
abbrev AliasTable : Type := List (String × String)

/-- Module-path test of the rule A import handler (src/eslint/index.js lines
50 to 53).  The second disjunct of the source is kept even though it is
subsumed by the first. -/
def matchesGeneratedServer (s : String) : Bool :=
  strHasSub s "_generated/server" || strHasSub s "convex/_generated/server"

/-- Specifier loop of the rule A import handler (src/eslint/index.js lines
54 to 63): for each ImportSpecifier whose imported name is query or
mutation, map the local name to the imported name. -/
def registerImportsA (tbl : AliasTable) (specs : List ImportSpec) : AliasTable :=
  specs.foldl
    (fun t sp =>
      match sp with
      | .importSpecifier localName importedName =>
          if importedName == "query" || importedName == "mutation" then
            (localName, importedName) :: t
          else t
      | .otherSpecifier _ => t)
    tbl

/-- Per-node handler of rule A (src/eslint/index.js lines 47 to 89).  On
an import declaration from a generated-server path it extends the table;
on a call whose callee is an identifier found in the table it reports at the
callee node, with the message chosen by the imported name. -/
def handlerA (tbl : AliasTable) (it : Item) : AliasTable × List Diagnostic :=
  match it.node with
  | .importDecl source specs =>
      (if matchesGeneratedServer source then registerImportsA tbl specs else tbl, [])
  | .call callee _ =>
      (tbl,
        match callee with
        | .ident calleeName =>
            match List.lookup calleeName tbl with
            | some importedName =>
                if importedName == "query" then
                  [⟨.useAuthenticatedQuery, it.path ++ [0]⟩]
                else if importedName == "mutation" then
                  [⟨.useAuthenticatedMutation, it.path ++ [0]⟩]
                else []
            | none => []
        | _ => [])
  | _ => (tbl, [])

/-- Diagnostics of a rule A file pass (the create function at
src/eslint/index.js lines 30 to 91): on the exempt file no handlers are
installed and the pass reports nothing; otherwise the handlers run over the
pre-order traversal starting from an empty alias table. -/
def lintRuleA (filename : String) (file : List Ast) : List Diagnostic :=
  if isAuthFile filename then [] else (runOn handlerA [] (preorder file)).2

/-- Alias table observed by the handler of the item at position i of the
pre-order traversal. -/
def tableAt (file : List Ast) (i : Nat) : AliasTable :=
  stateAt handlerA [] (preorder file) i

/-! ### Rule B: no-getuseridentity-in-authenticated -/

/-- State of rule B: the set of local names bound to an approved wrapper
(authenticatedImports, source line 122) and the set of registered handler
function literals (authenticatedHandlerFunctions, source line 126), keyed by
node path. -/
structure StB where
  authenticatedImports : List String
  registered : List (List Nat)
deriving DecidableEq, Repr

/-- Initial rule B state of a file pass. -/
def initB : StB := ⟨[], []⟩

/-- Module-path test of the rule B import handler (src/eslint/index.js lines
131 to 138), transliterating all five disjuncts of the source. -/
def matchesAuthModule (s : String) : Bool :=
  s == "./auth" || s == "../auth" || strHasSub s "/auth" ||
  s == "./_generated/server" || strHasSub s "_generated/server"

/-- Specifier loop of the rule B import handler (src/eslint/index.js lines
139 to 150): collect the local names of ImportSpecifiers whose imported name
is authenticatedQuery or authenticatedMutation.  A JavaScript Set is
modelled as a list queried through membership. -/
def registerImportsB (imps : List String) (specs : List ImportSpec) : List String :=
  specs.foldl
    (fun acc sp =>
      match sp with
      | .importSpecifier localName importedName =>
          if importedName == "authenticatedQuery" ||
             importedName == "authenticatedMutation" then
            localName :: acc
          else acc
      | .otherSpecifier _ => acc)
    imps

/-- Search of the handler property (src/eslint/index.js lines 164 to 169):
the first property whose key is an Identifier named handler, returned with
its index among the properties, which is the child index of its value. -/
def findHandlerIdx (j : Nat) : List ObjProp → Option (Nat × Ast)
  | [] => none
  | .property (.identKey k) v :: rest =>
      if k == "handler" then some (j, v) else findHandlerIdx (j + 1) rest
  | _ :: rest => findHandlerIdx (j + 1) rest

/-- Function-literal test (src/eslint/index.js lines 173 to 176). -/
def isFunctionLiteral : Ast → Bool
  | .arrowFn _ => true
  | .funExpr _ => true
  | _ => false

/-- Registration decision of the rule B CallExpression handler
(src/eslint/index.js lines 154 to 183): when the callee is an identifier
held in authenticatedImports, the first argument is an object literal, the
object has a property keyed by the identifier handler, and the value of
that property is a function literal, the result is the path of that value
node; otherwise none. -/
def handlerRegistration (st : StB) (it : Item) : Option (List Nat) :=
  match it.node with
  | .call (.ident calleeName) args =>
      if st.authenticatedImports.contains calleeName then
        match args with
        | .objectLit props :: _ =>
            match findHandlerIdx 0 props with
            | some (j, v) =>
                if isFunctionLiteral v then some (it.path ++ [1, j]) else none
            | none => none
        | _ => none
      else none
  | _ => none

/-- Forbidden three-segment pattern of rule B (src/eslint/index.js lines
187 to 199): an object identifier named ctx, a first member named auth and
a second member named getUserIdentity. -/
def isForbiddenShape : Ast → Bool
  | .member (.member (.ident objName) (.ident midName)) (.ident propName) =>
      propName == "getUserIdentity" && midName == "auth" && objName == "ctx"
  | _ => false

/-- Per-node handler of rule B (src/eslint/index.js lines 128 to 234).  On
an import declaration from an accepted module path it extends the
authenticated import set; on a call it applies the registration decision;
on a member matching the forbidden pattern that is the callee of its parent
call it reports once when some enclosing function literal is registered,
which is the loop of lines 217 to 231 walking outward and breaking at the
first registered function literal. -/
def handlerB (st : StB) (it : Item) : StB × List Diagnostic :=
  match it.node with
  | .importDecl source specs =>
      (if matchesAuthModule source then
        { st with authenticatedImports := registerImportsB st.authenticatedImports specs }
      else st, [])
  | .call _ _ =>
      (match handlerRegistration st it with
       | some ph => { st with registered := ph :: st.registered }
       | none => st, [])
  | .member _ _ =>
      (st,
        if isForbiddenShape it.node && it.isCalleeOfCall &&
           it.encl.any (fun q => st.registered.contains q) then
          [⟨.useContextIdentity, it.path⟩]
        else [])
  | _ => (st, [])

/-- Diagnostics of a rule B file pass (the create function at
src/eslint/index.js lines 109 to 236): empty on the exempt file, otherwise
the handlers run over the pre-order traversal from the empty state. -/
def lintRuleB (filename : String) (file : List Ast) : List Diagnostic :=
  if isAuthFile filename then [] else (runOn handlerB initB (preorder file)).2

/-- Rule B state observed by the handler of the item at position j of the
pre-order traversal. -/
def stateAtB (file : List Ast) (j : Nat) : StB :=
  stateAt handlerB initB (preorder file) j

/-! ### Generic facts about the host run -/

theorem runOn_cons {σ : Type} (h : σ → Item → σ × List Diagnostic) (s : σ)
    (it : Item) (rest : List Item) :
    runOn h s (it :: rest) =
      ((runOn h (h s it).1 rest).1, (h s it).2 ++ (runOn h (h s it).1 rest).2) := rfl

theorem stateAt_zero {σ : Type} (h : σ → Item → σ × List Diagnostic) (s : σ)
    (items : List Item) : stateAt h s items 0 = s := rfl

theorem stateAt_cons_succ {σ : Type} (h : σ → Item → σ × List Diagnostic) (s : σ)
    (it : Item) (rest : List Item) (j : Nat) :
    stateAt h s (it :: rest) (j + 1) = stateAt h (h s it).1 rest j := rfl

theorem runOn_append {σ : Type} (h : σ → Item → σ × List Diagnostic) :
    ∀ (l₁ l₂ : List Item) (s : σ),
      runOn h s (l₁ ++ l₂) =
        ((runOn h (runOn h s l₁).1 l₂).1,
          (runOn h s l₁).2 ++ (runOn h (runOn h s l₁).1 l₂).2) := by
  intro l₁
  induction l₁ with
  | nil => intro l₂ s; simp [runOn]
  | cons a rest ih =>
      intro l₂ s
      rw [List.cons_append, runOn_cons, runOn_cons, ih l₂ (h s a).1]
      simp [List.append_assoc]

/-- Membership in the diagnostics of a run: a diagnostic is emitted exactly
when the handler of some visited item, run on the state observed at that
item, emits it. -/
theorem runOn_mem {σ : Type} (h : σ → Item → σ × List Diagnostic) (d : Diagnostic) :
    ∀ (items : List Item) (s : σ),
      d ∈ (runOn h s items).2 ↔
        ∃ j it, items.get? j = some it ∧ d ∈ (h (stateAt h s items j) it).2 := by
  intro items
  induction items with
  | nil => intro s; simp [runOn]
  | cons a rest ih =>
      intro s
      rw [runOn_cons]
      simp only [List.mem_append]
      constructor
      · rintro (hd | hd)
        · exact ⟨0, a, rfl, hd⟩
        · obtain ⟨j, it, hj, hmem⟩ := (ih _).mp hd
          exact ⟨j + 1, it, by simpa using hj, by rwa [stateAt_cons_succ]⟩
      · rintro ⟨j, it, hj, hmem⟩
        cases j with
        | zero =>
            left
            obtain rfl : a = it := by simpa using hj
            exact hmem
        | succ j =>
            right
            exact (ih _).mpr ⟨j, it, by simpa using hj, by rwa [stateAt_cons_succ] at hmem⟩

theorem runOn_filter_nil {σ : Type} (h : σ → Item → σ × List Diagnostic)
    (P : Diagnostic → Bool) :
    ∀ (items : List Item) (s : σ),
      (∀ j it, items.get? j = some it →
        ∀ d ∈ (h (stateAt h s items j) it).2, P d = false) →
      ((runOn h s items).2).filter P = [] := by
  intro items
  induction items with
  | nil => intro s _; simp [runOn]
  | cons a rest ih =>
      intro s hblocks
      rw [runOn_cons]
      rw [List.filter_append]
      have h0 : ((h s a).2).filter P = [] := by
        apply List.filter_eq_nil_iff.mpr
        intro d hd
        have := hblocks 0 a rfl d hd
        simp [this]
      rw [h0, List.nil_append]
      apply ih (h s a).1
      intro j it hj d hd
      exact hblocks (j + 1) it (by simpa using hj) d (by rwa [stateAt_cons_succ])

/-- Exactness of a run filtered at one item: when the block of the item at
position i filters to out and every other block filters away, the whole run
filters to out. -/
theorem runOn_filter_single {σ : Type} (h : σ → Item → σ × List Diagnostic)
    (P : Diagnostic → Bool) :
    ∀ (items : List Item) (s : σ) (i : Nat) (it : Item) (out : List Diagnostic),
      items.get? i = some it →
      ((h (stateAt h s items i) it).2).filter P = out →
      (∀ j jt, items.get? j = some jt → j ≠ i →
        ∀ d ∈ (h (stateAt h s items j) jt).2, P d = false) →
      ((runOn h s items).2).filter P = out := by
  intro items
  induction items with
  | nil => intro s i it out hi _ _; simp at hi
  | cons a rest ih =>
      intro s i it out hi hout hblocks
      rw [runOn_cons, List.filter_append]
      cases i with
      | zero =>
          obtain rfl : a = it := by simpa using hi
          rw [stateAt_zero] at hout
          rw [hout]
          have hrest : ((runOn h (h s a).1 rest).2).filter P = [] := by
            apply runOn_filter_nil
            intro j jt hj d hd
            exact hblocks (j + 1) jt (by simpa using hj) (by simp)
              d (by rwa [stateAt_cons_succ])
          rw [hrest, List.append_nil]
      | succ i =>
          have h0 : ((h s a).2).filter P = [] := by
            apply List.filter_eq_nil_iff.mpr
            intro d hd
            have := hblocks 0 a rfl (by simp) d hd
            simp [this]
          rw [h0, List.nil_append]
          apply ih (h s a).1 i it out (by simpa using hi)
            (by rwa [stateAt_cons_succ] at hout)
          intro j jt hj hne d hd
          exact hblocks (j + 1) jt (by simpa using hj) (by simpa using hne)
            d (by rwa [stateAt_cons_succ])

theorem stateAt_succ {σ : Type} (h : σ → Item → σ × List Diagnostic) (s : σ)
    (items : List Item) (j : Nat) :
    stateAt h s items (j + 1) =
      (match items.get? j with
       | some it => (h (stateAt h s items j) it).1
       | none => stateAt h s items j) := by
  unfold stateAt
  rw [List.take_succ]
  cases hj : items.get? j with
  | none =>
      have hj' : items[j]? = none := by rwa [List.get?_eq_getElem?] at hj
      simp [runOn_append, hj']
  | some it =>
      have hj' : items[j]? = some it := by rwa [List.get?_eq_getElem?] at hj
      simp [runOn_append, hj', runOn]

/-! ### Shape of the diagnostics each handler can emit -/

/-- Every rule A diagnostic is attached to the callee child of a call whose
callee is an identifier that the alias table resolves, and carries the
message selected by the resolved name. -/
theorem handlerA_diag_shape (tbl : AliasTable) (it : Item) (d : Diagnostic)
    (hd : d ∈ (handlerA tbl it).2) :
    ∃ X args v, it.node = .call (.ident X) args ∧ List.lookup X tbl = some v ∧
      ((v = "query" ∧ d = ⟨.useAuthenticatedQuery, it.path ++ [0]⟩) ∨
       (v = "mutation" ∧ d = ⟨.useAuthenticatedMutation, it.path ++ [0]⟩)) := by
  cases hn : it.node
  case call callee args =>
    cases callee
    case ident X =>
      simp only [handlerA, hn] at hd
      cases hlook : List.lookup X tbl with
      | none => rw [hlook] at hd; simp at hd
      | some v =>
          rw [hlook] at hd
          by_cases hq : v = "query"
          · subst hq
            simp at hd
            exact ⟨X, args, "query", rfl, hlook, Or.inl ⟨rfl, hd⟩⟩
          · by_cases hm : v = "mutation"
            · subst hm
              simp at hd
              exact ⟨X, args, "mutation", rfl, hlook, Or.inr ⟨rfl, hd⟩⟩
            · simp [hq, hm] at hd
    all_goals simp [handlerA, hn] at hd
  all_goals simp [handlerA, hn] at hd

/-- A call whose identifier callee resolves in the alias table emits exactly
the one diagnostic keyed by the resolved name, at the callee child. -/
theorem handlerA_call_emits (tbl : AliasTable) (it : Item) (X : String)
    (args : List Ast) (v : String) (hnode : it.node = .call (.ident X) args)
    (hlook : List.lookup X tbl = some v) (hv : v = "query" ∨ v = "mutation") :
    (handlerA tbl it).2 =
      [⟨if v == "query" then .useAuthenticatedQuery else .useAuthenticatedMutation,
        it.path ++ [0]⟩] := by
  rcases hv with rfl | rfl <;> simp [handlerA, hnode, hlook]

/-- Every rule B diagnostic is a useContextIdentity report at a member node
matching the forbidden pattern, invoked as a callee, with some enclosing
function literal registered at check time. -/
theorem handlerB_diag_shape (st : StB) (it : Item) (d : Diagnostic)
    (hd : d ∈ (handlerB st it).2) :
    d = ⟨.useContextIdentity, it.path⟩ ∧ isForbiddenShape it.node = true ∧
      it.isCalleeOfCall = true ∧ ∃ q ∈ it.encl, q ∈ st.registered := by
  cases hn : it.node
  case member o pr =>
    simp only [handlerB, hn] at hd
    cases h1 : isForbiddenShape (Ast.member o pr) with
    | false => simp [h1] at hd
    | true =>
      cases h2 : it.isCalleeOfCall with
      | false => simp [h1, h2] at hd
      | true =>
        simp [h1, h2] at hd
        exact ⟨hd.2, rfl, rfl, hd.1⟩
  all_goals simp [handlerB, hn] at hd

/-- A forbidden-pattern member invoked as a callee, with a registered
enclosing function literal, makes the rule B handler report exactly once at
the member node. -/
theorem handlerB_member_emits (st : StB) (it : Item)
    (hshape : isForbiddenShape it.node = true) (hcallee : it.isCalleeOfCall = true)
    (q : List Nat) (hq : q ∈ it.encl) (hreg : q ∈ st.registered) :
    (handlerB st it).2 = [⟨.useContextIdentity, it.path⟩] := by
  have hany : it.encl.any (fun q => st.registered.contains q) = true :=
    List.any_eq_true.mpr ⟨q, hq, by simpa using hreg⟩
  cases hn : it.node
  case member o pr =>
    rw [hn] at hshape
    simp only [handlerB, hn]
    rw [hshape, hcallee, hany]
    simp
  all_goals (rw [hn] at hshape; simp [isForbiddenShape] at hshape)

/-- Shape forced by a successful registration decision: the item is a call
of a tracked identifier whose first argument is an object literal with an
identifier-keyed handler property holding a function literal, and the
registered path is the path of that value node. -/
theorem handlerRegistration_some_shape (st : StB) (it : Item) (ph : List Nat)
    (h : handlerRegistration st it = some ph) :
    ∃ n args props rest j v, it.node = .call (.ident n) args ∧
      args = .objectLit props :: rest ∧ st.authenticatedImports.contains n = true ∧
      findHandlerIdx 0 props = some (j, v) ∧ isFunctionLiteral v = true ∧
      ph = it.path ++ [1, j] := by
  cases hn : it.node
  case call callee args =>
    cases callee
    case ident n =>
      simp only [handlerRegistration, hn] at h
      split at h
      case isTrue hc =>
        split at h
        next props rest =>
          cases hf : findHandlerIdx 0 props with
          | none => rw [hf] at h; simp at h
          | some jv =>
              obtain ⟨j, v⟩ := jv
              rw [hf] at h
              simp only [] at h
              split at h
              case isTrue hfl =>
                exact ⟨n, .objectLit props :: rest, props, rest, j, v,
                  rfl, rfl, hc, hf, hfl, (Option.some.inj h).symm⟩
              case isFalse hfl => simp at h
        next hx => simp at h
      case isFalse hc => simp at h
    all_goals simp [handlerRegistration, hn] at h
  all_goals simp [handlerRegistration, hn] at h

/-- When the registration decision succeeds, the rule B handler registers
exactly that path and reports nothing. -/
theorem handlerB_reg_some (st : StB) (it : Item) (ph : List Nat)
    (h : handlerRegistration st it = some ph) :
    (handlerB st it).1.registered = ph :: st.registered ∧ (handlerB st it).2 = [] := by
  obtain ⟨n, args, props, rest, j, v, hn, _, _, _, _, _⟩ :=
    handlerRegistration_some_shape st it ph h
  simp only [handlerB, hn]
  rw [show handlerRegistration st it = some ph from h]
  simp

/-- The rule B handler never removes a registered path. -/
theorem handlerB_registered_mono (st : StB) (it : Item) :
    ∀ q ∈ st.registered, q ∈ (handlerB st it).1.registered := by
  intro q hq
  cases hn : it.node
  case importDecl s sp =>
    simp only [handlerB, hn]
    split <;> simp [hq]
  case call c args =>
    simp only [handlerB, hn]
    cases handlerRegistration st it <;> simp [hq]
  all_goals simp [handlerB, hn, hq]

/-- Registered paths persist for the remainder of the file pass. -/
theorem stateAtB_registered_mono (file : List Ast) (j k : Nat) (hjk : j ≤ k) :
    ∀ q ∈ (stateAtB file j).registered, q ∈ (stateAtB file k).registered := by
  induction k with
  | zero =>
      intro q hq
      obtain rfl : j = 0 := Nat.le_zero.mp hjk
      exact hq
  | succ k ih =>
      intro q hq
      rcases Nat.lt_or_ge j (k + 1) with hlt | hge
      · have hjk' : j ≤ k := Nat.lt_succ_iff.mp hlt
        have hk := ih hjk' q hq
        show q ∈ (stateAt handlerB initB (preorder file) (k + 1)).registered
        rw [stateAt_succ]
        cases hit : (preorder file).get? k with
        | none => simpa using hk
        | some it =>
            simp only
            exact handlerB_registered_mono _ it q hk
      · obtain rfl : j = k + 1 := Nat.le_antisymm hjk hge
        exact hq

/-! ### Structural facts about the pre-order traversal -/

theorem path_ne_append_cons (p : List Nat) (k : Nat) (q : List Nat) : p ≠ p ++ k :: q := by
  intro h
  have := congrArg List.length h
  simp at this

theorem append_cons_inj {p : List Nat} {k k' : Nat} {q q' : List Nat}
    (h : p ++ k :: q = p ++ k' :: q') : k = k' ∧ q = q' := by
  have h2 := List.append_cancel_left h
  exact ⟨(List.cons.inj h2).1, (List.cons.inj h2).2⟩

theorem append_eq_self_nil {p r : List Nat} (h : p = p ++ r) : r = [] := by
  have := congrArg List.length h
  simp at this
  exact this

theorem ext_head_eq {p : List Nat} {k a : Nat} {q t r : List Nat}
    (h : p ++ k :: q = (p ++ a :: t) ++ r) : k = a := by
  rw [List.append_assoc, List.cons_append] at h
  exact (append_cons_inj h).1

theorem head_not_ext {p : List Nat} {k : Nat} {t r : List Nat}
    (h : p = (p ++ k :: t) ++ r) : False := by
  have := congrArg List.length h
  simp [List.length_append] at this

mutual

theorem go_path_shape (n : Ast) (p : List Nat) (encl : List (List Nat)) (b : Bool) :
    ∀ x ∈ go p encl b n, x = ⟨p, n, encl, b⟩ ∨ ∃ k q, x.path = p ++ k :: q := by
  intro x hx
  cases n with
  | ident s => simp [go] at hx; exact Or.inl hx
  | strLit s => simp [go] at hx; exact Or.inl hx
  | importDecl s sp => simp [go] at hx; exact Or.inl hx
  | call c args =>
      simp only [go, List.mem_cons, List.mem_append] at hx
      rcases hx with rfl | hx | hx
      · exact Or.inl rfl
      · rcases go_path_shape c (p ++ [0]) encl true x hx with rfl | ⟨k, q, hq⟩
        · exact Or.inr ⟨0, [], by simp⟩
        · exact Or.inr ⟨0, k :: q, by simpa [List.append_assoc] using hq⟩
      · obtain ⟨k, q, _, hq⟩ := goList_path_shape args p encl 1 x hx
        exact Or.inr ⟨k, q, hq⟩
  | member o pr =>
      simp only [go, List.mem_cons, List.mem_append] at hx
      rcases hx with rfl | hx | hx
      · exact Or.inl rfl
      · rcases go_path_shape o (p ++ [0]) encl false x hx with rfl | ⟨k, q, hq⟩
        · exact Or.inr ⟨0, [], by simp⟩
        · exact Or.inr ⟨0, k :: q, by simpa [List.append_assoc] using hq⟩
      · rcases go_path_shape pr (p ++ [1]) encl false x hx with rfl | ⟨k, q, hq⟩
        · exact Or.inr ⟨1, [], by simp⟩
        · exact Or.inr ⟨1, k :: q, by simpa [List.append_assoc] using hq⟩
  | objectLit props =>
      simp only [go, List.mem_cons] at hx
      rcases hx with rfl | hx
      · exact Or.inl rfl
      · obtain ⟨k, q, _, hq⟩ := goProps_path_shape props p encl 0 x hx
        exact Or.inr ⟨k, q, hq⟩
  | arrowFn body =>
      simp only [go, List.mem_cons] at hx
      rcases hx with rfl | hx
      · exact Or.inl rfl
      · obtain ⟨k, q, _, hq⟩ := goList_path_shape body p (p :: encl) 0 x hx
        exact Or.inr ⟨k, q, hq⟩
  | funExpr body =>
      simp only [go, List.mem_cons] at hx
      rcases hx with rfl | hx
      · exact Or.inl rfl
      · obtain ⟨k, q, _, hq⟩ := goList_path_shape body p (p :: encl) 0 x hx
        exact Or.inr ⟨k, q, hq⟩
  | other cs =>
      simp only [go, List.mem_cons] at hx
      rcases hx with rfl | hx
      · exact Or.inl rfl
      · obtain ⟨k, q, _, hq⟩ := goList_path_shape cs p encl 0 x hx
        exact Or.inr ⟨k, q, hq⟩

theorem goList_path_shape (ns : List Ast) (p : List Nat) (encl : List (List Nat)) (i : Nat) :
    ∀ x ∈ goList p encl i ns, ∃ k q, i ≤ k ∧ x.path = p ++ k :: q := by
  intro x hx
  cases ns with
  | nil => simp [goList] at hx
  | cons a rest =>
      simp only [goList, List.mem_append] at hx
      rcases hx with hx | hx
      · rcases go_path_shape a (p ++ [i]) encl false x hx with rfl | ⟨k, q, hq⟩
        · exact ⟨i, [], le_refl i, by simp⟩
        · exact ⟨i, k :: q, le_refl i, by simpa [List.append_assoc] using hq⟩
      · obtain ⟨k, q, hk, hq⟩ := goList_path_shape rest p encl (i + 1) x hx
        exact ⟨k, q, Nat.le_of_succ_le hk, hq⟩

theorem goProps_path_shape (ps : List ObjProp) (p : List Nat) (encl : List (List Nat)) (j : Nat) :
    ∀ x ∈ goProps p encl j ps, ∃ k q, j ≤ k ∧ x.path = p ++ k :: q := by
  intro x hx
  cases ps with
  | nil => simp [goProps] at hx
  | cons pr rest =>
      cases pr with
      | property key v =>
          simp only [goProps, List.mem_append] at hx
          rcases hx with hx | hx
          · rcases go_path_shape v (p ++ [j]) encl false x hx with rfl | ⟨k, q, hq⟩
            · exact ⟨j, [], le_refl j, by simp⟩
            · exact ⟨j, k :: q, le_refl j, by simpa [List.append_assoc] using hq⟩
          · obtain ⟨k, q, hk, hq⟩ := goProps_path_shape rest p encl (j + 1) x hx
            exact ⟨k, q, Nat.le_of_succ_le hk, hq⟩
      | spread a =>
          simp only [goProps, List.mem_append] at hx
          rcases hx with hx | hx
          · rcases go_path_shape a (p ++ [j]) encl false x hx with rfl | ⟨k, q, hq⟩
            · exact ⟨j, [], le_refl j, by simp⟩
            · exact ⟨j, k :: q, le_refl j, by simpa [List.append_assoc] using hq⟩
          · obtain ⟨k, q, hk, hq⟩ := goProps_path_shape rest p encl (j + 1) x hx
            exact ⟨k, q, Nat.le_of_succ_le hk, hq⟩

end

/-- Every item inside a subtree placed at child index i under path p has a
path of the form p followed by i. -/
theorem go_child_path (n : Ast) (p : List Nat) (encl : List (List Nat)) (b : Bool) (i : Nat) :
    ∀ x ∈ go (p ++ [i]) encl b n, ∃ t, x.path = p ++ i :: t := by
  intro x hx
  rcases go_path_shape n (p ++ [i]) encl b x hx with rfl | ⟨k, q, hq⟩
  · exact ⟨[], by simp⟩
  · exact ⟨k :: q, by simpa [List.append_assoc] using hq⟩

mutual

theorem go_path_nodup (n : Ast) (p : List Nat) (encl : List (List Nat)) (b : Bool) :
    ((go p encl b n).map Item.path).Nodup := by
  cases n with
  | ident s => simp [go]
  | strLit s => simp [go]
  | importDecl s sp => simp [go]
  | call c args =>
      simp only [go, List.map_cons, List.map_append]
      refine List.nodup_cons.mpr ⟨?_, ?_⟩
      · intro hmem
        rcases List.mem_append.mp hmem with hmem | hmem
        · obtain ⟨x, hx, hpx⟩ := List.mem_map.mp hmem
          obtain ⟨t, ht⟩ := go_child_path c p encl true 0 x hx
          exact path_ne_append_cons p 0 t (by rw [hpx] at ht; exact ht)
        · obtain ⟨x, hx, hpx⟩ := List.mem_map.mp hmem
          obtain ⟨k, q, _, hq⟩ := goList_path_shape args p encl 1 x hx
          exact path_ne_append_cons p k q (by rw [hpx] at hq; exact hq)
      · refine List.Nodup.append (go_path_nodup c (p ++ [0]) encl true)
          (goList_path_nodup args p encl 1) ?_
        intro z hz hz'
        obtain ⟨x, hx, rfl⟩ := List.mem_map.mp hz
        obtain ⟨y, hy, hxy⟩ := List.mem_map.mp hz'
        obtain ⟨t, ht⟩ := go_child_path c p encl true 0 x hx
        obtain ⟨k, q, hk, hq⟩ := goList_path_shape args p encl 1 y hy
        have : k = 0 ∧ q = t := append_cons_inj (by rw [← hq, hxy, ht])
        omega
  | member o pr =>
      simp only [go, List.map_cons, List.map_append]
      refine List.nodup_cons.mpr ⟨?_, ?_⟩
      · intro hmem
        rcases List.mem_append.mp hmem with hmem | hmem
        · obtain ⟨x, hx, hpx⟩ := List.mem_map.mp hmem
          obtain ⟨t, ht⟩ := go_child_path o p encl false 0 x hx
          exact path_ne_append_cons p 0 t (by rw [hpx] at ht; exact ht)
        · obtain ⟨x, hx, hpx⟩ := List.mem_map.mp hmem
          obtain ⟨t, ht⟩ := go_child_path pr p encl false 1 x hx
          exact path_ne_append_cons p 1 t (by rw [hpx] at ht; exact ht)
      · refine List.Nodup.append (go_path_nodup o (p ++ [0]) encl false)
          (go_path_nodup pr (p ++ [1]) encl false) ?_
        intro z hz hz'
        obtain ⟨x, hx, rfl⟩ := List.mem_map.mp hz
        obtain ⟨y, hy, hxy⟩ := List.mem_map.mp hz'
        obtain ⟨t, ht⟩ := go_child_path o p encl false 0 x hx
        obtain ⟨t', ht'⟩ := go_child_path pr p encl false 1 y hy
        have : 1 = 0 ∧ t' = t := append_cons_inj (by rw [← ht', hxy, ht])
        omega
  | objectLit props =>
      simp only [go, List.map_cons]
      refine List.nodup_cons.mpr ⟨?_, goProps_path_nodup props p encl 0⟩
      intro hmem
      obtain ⟨x, hx, hpx⟩ := List.mem_map.mp hmem
      obtain ⟨k, q, _, hq⟩ := goProps_path_shape props p encl 0 x hx
      exact path_ne_append_cons p k q (by rw [hpx] at hq; exact hq)
  | arrowFn body =>
      simp only [go, List.map_cons]
      refine List.nodup_cons.mpr ⟨?_, goList_path_nodup body p (p :: encl) 0⟩
      intro hmem
      obtain ⟨x, hx, hpx⟩ := List.mem_map.mp hmem
      obtain ⟨k, q, _, hq⟩ := goList_path_shape body p (p :: encl) 0 x hx
      exact path_ne_append_cons p k q (by rw [hpx] at hq; exact hq)
  | funExpr body =>
      simp only [go, List.map_cons]
      refine List.nodup_cons.mpr ⟨?_, goList_path_nodup body p (p :: encl) 0⟩
      intro hmem
      obtain ⟨x, hx, hpx⟩ := List.mem_map.mp hmem
      obtain ⟨k, q, _, hq⟩ := goList_path_shape body p (p :: encl) 0 x hx
      exact path_ne_append_cons p k q (by rw [hpx] at hq; exact hq)
  | other cs =>
      simp only [go, List.map_cons]
      refine List.nodup_cons.mpr ⟨?_, goList_path_nodup cs p encl 0⟩
      intro hmem
      obtain ⟨x, hx, hpx⟩ := List.mem_map.mp hmem
      obtain ⟨k, q, _, hq⟩ := goList_path_shape cs p encl 0 x hx
      exact path_ne_append_cons p k q (by rw [hpx] at hq; exact hq)

theorem goList_path_nodup (ns : List Ast) (p : List Nat) (encl : List (List Nat)) (i : Nat) :
    ((goList p encl i ns).map Item.path).Nodup := by
  cases ns with
  | nil => simp [goList]
  | cons a rest =>
      simp only [goList, List.map_append]
      refine List.Nodup.append (go_path_nodup a (p ++ [i]) encl false)
        (goList_path_nodup rest p encl (i + 1)) ?_
      intro z hz hz'
      obtain ⟨x, hx, rfl⟩ := List.mem_map.mp hz
      obtain ⟨y, hy, hxy⟩ := List.mem_map.mp hz'
      obtain ⟨t, ht⟩ := go_child_path a p encl false i x hx
      obtain ⟨k, q, hk, hq⟩ := goList_path_shape rest p encl (i + 1) y hy
      have : k = i ∧ q = t := append_cons_inj (by rw [← hq, hxy, ht])
      omega

theorem goProps_path_nodup (ps : List ObjProp) (p : List Nat) (encl : List (List Nat)) (j : Nat) :
    ((goProps p encl j ps).map Item.path).Nodup := by
  cases ps with
  | nil => simp [goProps]
  | cons pr rest =>
      cases pr with
      | property key v =>
          simp only [goProps, List.map_append]
          refine List.Nodup.append (go_path_nodup v (p ++ [j]) encl false)
            (goProps_path_nodup rest p encl (j + 1)) ?_
          intro z hz hz'
          obtain ⟨x, hx, rfl⟩ := List.mem_map.mp hz
          obtain ⟨y, hy, hxy⟩ := List.mem_map.mp hz'
          obtain ⟨t, ht⟩ := go_child_path v p encl false j x hx
          obtain ⟨k, q, hk, hq⟩ := goProps_path_shape rest p encl (j + 1) y hy
          have : k = j ∧ q = t := append_cons_inj (by rw [← hq, hxy, ht])
          omega
      | spread a =>
          simp only [goProps, List.map_append]
          refine List.Nodup.append (go_path_nodup a (p ++ [j]) encl false)
            (goProps_path_nodup rest p encl (j + 1)) ?_
          intro z hz hz'
          obtain ⟨x, hx, rfl⟩ := List.mem_map.mp hz
          obtain ⟨y, hy, hxy⟩ := List.mem_map.mp hz'
          obtain ⟨t, ht⟩ := go_child_path a p encl false j x hx
          obtain ⟨k, q, hk, hq⟩ := goProps_path_shape rest p encl (j + 1) y hy
          have : k = j ∧ q = t := append_cons_inj (by rw [← hq, hxy, ht])
          omega

end

mutual

theorem go_order (n : Ast) (p : List Nat) (encl : List (List Nat)) (b : Bool) :
    ∀ x ∈ go p encl b n, ∀ y ∈ go p encl b n,
      (∃ r, r ≠ [] ∧ y.path = x.path ++ r) → List.Sublist [x, y] (go p encl b n) := by
  intro x hx y hy hr
  obtain ⟨r, hrne, hry⟩ := hr
  cases n with
  | ident s =>
      exfalso
      simp [go] at hx hy
      rw [hx, hy] at hry
      exact hrne (append_eq_self_nil hry)
  | strLit s =>
      exfalso
      simp [go] at hx hy
      rw [hx, hy] at hry
      exact hrne (append_eq_self_nil hry)
  | importDecl s sp =>
      exfalso
      simp [go] at hx hy
      rw [hx, hy] at hry
      exact hrne (append_eq_self_nil hry)
  | call c args =>
      simp only [go] at hx hy ⊢
      rcases List.mem_cons.mp hx with rfl | hx'
      · rcases List.mem_cons.mp hy with rfl | hy'
        · exact absurd (append_eq_self_nil hry) hrne
        · exact List.Sublist.cons₂ _ (List.singleton_sublist.mpr hy')
      · rcases List.mem_cons.mp hy with rfl | hy'
        · exfalso
          rcases List.mem_append.mp hx' with hx1 | hx1
          · obtain ⟨t, ht⟩ := go_child_path c p encl true 0 x hx1
            rw [ht] at hry
            exact head_not_ext hry
          · obtain ⟨k, q, _, hq⟩ := goList_path_shape args p encl 1 x hx1
            rw [hq] at hry
            exact head_not_ext hry
        · rcases List.mem_append.mp hx' with hx1 | hx1
          · rcases List.mem_append.mp hy' with hy1 | hy1
            · exact ((go_order c (p ++ [0]) encl true x hx1 y hy1
                ⟨r, hrne, hry⟩).trans (List.sublist_append_left _ _)).cons _
            · exfalso
              obtain ⟨t, ht⟩ := go_child_path c p encl true 0 x hx1
              obtain ⟨k, q, hk, hq⟩ := goList_path_shape args p encl 1 y hy1
              have : k = 0 := ext_head_eq (by rw [← hq, hry, ht])
              omega
          · rcases List.mem_append.mp hy' with hy1 | hy1
            · exfalso
              obtain ⟨k, q, hk, hq⟩ := goList_path_shape args p encl 1 x hx1
              obtain ⟨t, ht⟩ := go_child_path c p encl true 0 y hy1
              have : 0 = k := ext_head_eq (by rw [← ht, hry, hq])
              omega
            · exact ((goList_order args p encl 1 x hx1 y hy1
                ⟨r, hrne, hry⟩).trans (List.sublist_append_right _ _)).cons _
  | member o pr =>
      simp only [go] at hx hy ⊢
      rcases List.mem_cons.mp hx with rfl | hx'
      · rcases List.mem_cons.mp hy with rfl | hy'
        · exact absurd (append_eq_self_nil hry) hrne
        · exact List.Sublist.cons₂ _ (List.singleton_sublist.mpr hy')
      · rcases List.mem_cons.mp hy with rfl | hy'
        · exfalso
          rcases List.mem_append.mp hx' with hx1 | hx1
          · obtain ⟨t, ht⟩ := go_child_path o p encl false 0 x hx1
            rw [ht] at hry
            exact head_not_ext hry
          · obtain ⟨t, ht⟩ := go_child_path pr p encl false 1 x hx1
            rw [ht] at hry
            exact head_not_ext hry
        · rcases List.mem_append.mp hx' with hx1 | hx1
          · rcases List.mem_append.mp hy' with hy1 | hy1
            · exact ((go_order o (p ++ [0]) encl false x hx1 y hy1
                ⟨r, hrne, hry⟩).trans (List.sublist_append_left _ _)).cons _
            · exfalso
              obtain ⟨t, ht⟩ := go_child_path o p encl false 0 x hx1
              obtain ⟨t', ht'⟩ := go_child_path pr p encl false 1 y hy1
              have : (1 : Nat) = 0 := ext_head_eq (by rw [← ht', hry, ht])
              omega
          · rcases List.mem_append.mp hy' with hy1 | hy1
            · exfalso
              obtain ⟨t, ht⟩ := go_child_path pr p encl false 1 x hx1
              obtain ⟨t', ht'⟩ := go_child_path o p encl false 0 y hy1
              have : (0 : Nat) = 1 := ext_head_eq (by rw [← ht', hry, ht])
              omega
            · exact ((go_order pr (p ++ [1]) encl false x hx1 y hy1
                ⟨r, hrne, hry⟩).trans (List.sublist_append_right _ _)).cons _
  | objectLit props =>
      simp only [go] at hx hy ⊢
      rcases List.mem_cons.mp hx with rfl | hx'
      · rcases List.mem_cons.mp hy with rfl | hy'
        · exact absurd (append_eq_self_nil hry) hrne
        · exact List.Sublist.cons₂ _ (List.singleton_sublist.mpr hy')
      · rcases List.mem_cons.mp hy with rfl | hy'
        · exfalso
          obtain ⟨k, q, _, hq⟩ := goProps_path_shape props p encl 0 x hx'
          rw [hq] at hry
          exact head_not_ext hry
        · exact (goProps_order props p encl 0 x hx' y hy' ⟨r, hrne, hry⟩).cons _
  | arrowFn body =>
      simp only [go] at hx hy ⊢
      rcases List.mem_cons.mp hx with rfl | hx'
      · rcases List.mem_cons.mp hy with rfl | hy'
        · exact absurd (append_eq_self_nil hry) hrne
        · exact List.Sublist.cons₂ _ (List.singleton_sublist.mpr hy')
      · rcases List.mem_cons.mp hy with rfl | hy'
        · exfalso
          obtain ⟨k, q, _, hq⟩ := goList_path_shape body p (p :: encl) 0 x hx'
          rw [hq] at hry
          exact head_not_ext hry
        · exact (goList_order body p (p :: encl) 0 x hx' y hy' ⟨r, hrne, hry⟩).cons _
  | funExpr body =>
      simp only [go] at hx hy ⊢
      rcases List.mem_cons.mp hx with rfl | hx'
      · rcases List.mem_cons.mp hy with rfl | hy'
        · exact absurd (append_eq_self_nil hry) hrne
        · exact List.Sublist.cons₂ _ (List.singleton_sublist.mpr hy')
      · rcases List.mem_cons.mp hy with rfl | hy'
        · exfalso
          obtain ⟨k, q, _, hq⟩ := goList_path_shape body p (p :: encl) 0 x hx'
          rw [hq] at hry
          exact head_not_ext hry
        · exact (goList_order body p (p :: encl) 0 x hx' y hy' ⟨r, hrne, hry⟩).cons _
  | other cs =>
      simp only [go] at hx hy ⊢
      rcases List.mem_cons.mp hx with rfl | hx'
      · rcases List.mem_cons.mp hy with rfl | hy'
        · exact absurd (append_eq_self_nil hry) hrne
        · exact List.Sublist.cons₂ _ (List.singleton_sublist.mpr hy')
      · rcases List.mem_cons.mp hy with rfl | hy'
        · exfalso
          obtain ⟨k, q, _, hq⟩ := goList_path_shape cs p encl 0 x hx'
          rw [hq] at hry
          exact head_not_ext hry
        · exact (goList_order cs p encl 0 x hx' y hy' ⟨r, hrne, hry⟩).cons _

theorem goList_order (ns : List Ast) (p : List Nat) (encl : List (List Nat)) (i : Nat) :
    ∀ x ∈ goList p encl i ns, ∀ y ∈ goList p encl i ns,
      (∃ r, r ≠ [] ∧ y.path = x.path ++ r) → List.Sublist [x, y] (goList p encl i ns) := by
  intro x hx y hy hr
  obtain ⟨r, hrne, hry⟩ := hr
  cases ns with
  | nil => simp [goList] at hx
  | cons a rest =>
      simp only [goList] at hx hy ⊢
      rcases List.mem_append.mp hx with hx1 | hx1
      · rcases List.mem_append.mp hy with hy1 | hy1
        · exact (go_order a (p ++ [i]) encl false x hx1 y hy1
            ⟨r, hrne, hry⟩).trans (List.sublist_append_left _ _)
        · exfalso
          obtain ⟨t, ht⟩ := go_child_path a p encl false i x hx1
          obtain ⟨k, q, hk, hq⟩ := goList_path_shape rest p encl (i + 1) y hy1
          have : k = i := ext_head_eq (by rw [← hq, hry, ht])
          omega
      · rcases List.mem_append.mp hy with hy1 | hy1
        · exfalso
          obtain ⟨k, q, hk, hq⟩ := goList_path_shape rest p encl (i + 1) x hx1
          obtain ⟨t, ht⟩ := go_child_path a p encl false i y hy1
          have : i = k := ext_head_eq (by rw [← ht, hry, hq])
          omega
        · exact (goList_order rest p encl (i + 1) x hx1 y hy1
            ⟨r, hrne, hry⟩).trans (List.sublist_append_right _ _)

theorem goProps_order (ps : List ObjProp) (p : List Nat) (encl : List (List Nat)) (j : Nat) :
    ∀ x ∈ goProps p encl j ps, ∀ y ∈ goProps p encl j ps,
      (∃ r, r ≠ [] ∧ y.path = x.path ++ r) → List.Sublist [x, y] (goProps p encl j ps) := by
  intro x hx y hy hr
  obtain ⟨r, hrne, hry⟩ := hr
  cases ps with
  | nil => simp [goProps] at hx
  | cons pr rest =>
      cases pr with
      | property key v =>
          simp only [goProps] at hx hy ⊢
          rcases List.mem_append.mp hx with hx1 | hx1
          · rcases List.mem_append.mp hy with hy1 | hy1
            · exact (go_order v (p ++ [j]) encl false x hx1 y hy1
                ⟨r, hrne, hry⟩).trans (List.sublist_append_left _ _)
            · exfalso
              obtain ⟨t, ht⟩ := go_child_path v p encl false j x hx1
              obtain ⟨k, q, hk, hq⟩ := goProps_path_shape rest p encl (j + 1) y hy1
              have : k = j := ext_head_eq (by rw [← hq, hry, ht])
              omega
          · rcases List.mem_append.mp hy with hy1 | hy1
            · exfalso
              obtain ⟨k, q, hk, hq⟩ := goProps_path_shape rest p encl (j + 1) x hx1
              obtain ⟨t, ht⟩ := go_child_path v p encl false j y hy1
              have : j = k := ext_head_eq (by rw [← ht, hry, hq])
              omega
            · exact (goProps_order rest p encl (j + 1) x hx1 y hy1
                ⟨r, hrne, hry⟩).trans (List.sublist_append_right _ _)
      | spread a =>
          simp only [goProps] at hx hy ⊢
          rcases List.mem_append.mp hx with hx1 | hx1
          · rcases List.mem_append.mp hy with hy1 | hy1
            · exact (go_order a (p ++ [j]) encl false x hx1 y hy1
                ⟨r, hrne, hry⟩).trans (List.sublist_append_left _ _)
            · exfalso
              obtain ⟨t, ht⟩ := go_child_path a p encl false j x hx1
              obtain ⟨k, q, hk, hq⟩ := goProps_path_shape rest p encl (j + 1) y hy1
              have : k = j := ext_head_eq (by rw [← hq, hry, ht])
              omega
          · rcases List.mem_append.mp hy with hy1 | hy1
            · exfalso
              obtain ⟨k, q, hk, hq⟩ := goProps_path_shape rest p encl (j + 1) x hx1
              obtain ⟨t, ht⟩ := go_child_path a p encl false j y hy1
              have : j = k := ext_head_eq (by rw [← ht, hry, hq])
              omega
            · exact (goProps_order rest p encl (j + 1) x hx1 y hy1
                ⟨r, hrne, hry⟩).trans (List.sublist_append_right _ _)

end

mutual

theorem go_encl_below (n : Ast) (p : List Nat) (encl : List (List Nat)) (b : Bool)
    (hpre : ∀ q ∈ encl, ∃ t, t ≠ [] ∧ p = q ++ t) :
    ∀ x ∈ go p encl b n, ∀ q ∈ x.encl, ∃ t, t ≠ [] ∧ x.path = q ++ t := by
  intro x hx q hq
  cases n with
  | ident s =>
      simp [go] at hx
      subst hx
      exact hpre q hq
  | strLit s =>
      simp [go] at hx
      subst hx
      exact hpre q hq
  | importDecl s sp =>
      simp [go] at hx
      subst hx
      exact hpre q hq
  | call c args =>
      simp only [go, List.mem_cons, List.mem_append] at hx
      rcases hx with rfl | hx | hx
      · exact hpre q hq
      · refine go_encl_below c (p ++ [0]) encl true ?_ x hx q hq
        intro q' hq'
        obtain ⟨t, htne, ht⟩ := hpre q' hq'
        exact ⟨t ++ [0], by simp, by rw [ht, List.append_assoc]⟩
      · refine goList_encl_below args p encl 1 ?_ x hx q hq
        intro q' hq'
        obtain ⟨t, _, ht⟩ := hpre q' hq'
        exact ⟨t, ht⟩
  | member o pr =>
      simp only [go, List.mem_cons, List.mem_append] at hx
      rcases hx with rfl | hx | hx
      · exact hpre q hq
      · refine go_encl_below o (p ++ [0]) encl false ?_ x hx q hq
        intro q' hq'
        obtain ⟨t, htne, ht⟩ := hpre q' hq'
        exact ⟨t ++ [0], by simp, by rw [ht, List.append_assoc]⟩
      · refine go_encl_below pr (p ++ [1]) encl false ?_ x hx q hq
        intro q' hq'
        obtain ⟨t, htne, ht⟩ := hpre q' hq'
        exact ⟨t ++ [1], by simp, by rw [ht, List.append_assoc]⟩
  | objectLit props =>
      simp only [go, List.mem_cons] at hx
      rcases hx with rfl | hx
      · exact hpre q hq
      · refine goProps_encl_below props p encl 0 ?_ x hx q hq
        intro q' hq'
        obtain ⟨t, _, ht⟩ := hpre q' hq'
        exact ⟨t, ht⟩
  | arrowFn body =>
      simp only [go, List.mem_cons] at hx
      rcases hx with rfl | hx
      · exact hpre q hq
      · refine goList_encl_below body p (p :: encl) 0 ?_ x hx q hq
        intro q' hq'
        rcases List.mem_cons.mp hq' with rfl | hq''
        · exact ⟨[], by simp⟩
        · obtain ⟨t, _, ht⟩ := hpre q' hq''
          exact ⟨t, ht⟩
  | funExpr body =>
      simp only [go, List.mem_cons] at hx
      rcases hx with rfl | hx
      · exact hpre q hq
      · refine goList_encl_below body p (p :: encl) 0 ?_ x hx q hq
        intro q' hq'
        rcases List.mem_cons.mp hq' with rfl | hq''
        · exact ⟨[], by simp⟩
        · obtain ⟨t, _, ht⟩ := hpre q' hq''
          exact ⟨t, ht⟩
  | other cs =>
      simp only [go, List.mem_cons] at hx
      rcases hx with rfl | hx
      · exact hpre q hq
      · refine goList_encl_below cs p encl 0 ?_ x hx q hq
        intro q' hq'
        obtain ⟨t, _, ht⟩ := hpre q' hq'
        exact ⟨t, ht⟩

theorem goList_encl_below (ns : List Ast) (p : List Nat) (encl : List (List Nat)) (i : Nat)
    (hpre : ∀ q ∈ encl, ∃ t, p = q ++ t) :
    ∀ x ∈ goList p encl i ns, ∀ q ∈ x.encl, ∃ t, t ≠ [] ∧ x.path = q ++ t := by
  intro x hx q hq
  cases ns with
  | nil => simp [goList] at hx
  | cons a rest =>
      simp only [goList, List.mem_append] at hx
      rcases hx with hx | hx
      · refine go_encl_below a (p ++ [i]) encl false ?_ x hx q hq
        intro q' hq'
        obtain ⟨t, ht⟩ := hpre q' hq'
        exact ⟨t ++ [i], by simp, by rw [ht, List.append_assoc]⟩
      · exact goList_encl_below rest p encl (i + 1) hpre x hx q hq

theorem goProps_encl_below (ps : List ObjProp) (p : List Nat) (encl : List (List Nat)) (j : Nat)
    (hpre : ∀ q ∈ encl, ∃ t, p = q ++ t) :
    ∀ x ∈ goProps p encl j ps, ∀ q ∈ x.encl, ∃ t, t ≠ [] ∧ x.path = q ++ t := by
  intro x hx q hq
  cases ps with
  | nil => simp [goProps] at hx
  | cons pr rest =>
      cases pr with
      | property key v =>
          simp only [goProps, List.mem_append] at hx
          rcases hx with hx | hx
          · refine go_encl_below v (p ++ [j]) encl false ?_ x hx q hq
            intro q' hq'
            obtain ⟨t, ht⟩ := hpre q' hq'
            exact ⟨t ++ [j], by simp, by rw [ht, List.append_assoc]⟩
          · exact goProps_encl_below rest p encl (j + 1) hpre x hx q hq
      | spread a =>
          simp only [goProps, List.mem_append] at hx
          rcases hx with hx | hx
          · refine go_encl_below a (p ++ [j]) encl false ?_ x hx q hq
            intro q' hq'
            obtain ⟨t, ht⟩ := hpre q' hq'
            exact ⟨t ++ [j], by simp, by rw [ht, List.append_assoc]⟩
          · exact goProps_encl_below rest p encl (j + 1) hpre x hx q hq

end

/-! ### Top-level traversal facts -/

theorem preorder_path_nodup (file : List Ast) : ((preorder file).map Item.path).Nodup :=
  goList_path_nodup file [] [] 0

theorem preorder_order (file : List Ast) (x y : Item) (hx : x ∈ preorder file)
    (hy : y ∈ preorder file) (h : ∃ r, r ≠ [] ∧ y.path = x.path ++ r) :
    List.Sublist [x, y] (preorder file) :=
  goList_order file [] [] 0 x hx y hy h

/-- Every entry of the lexical scope chain of an item is the path of a
strictly enclosing node. -/
theorem preorder_encl_below (file : List Ast) (x : Item) (hx : x ∈ preorder file)
    (q : List Nat) (hq : q ∈ x.encl) : ∃ t, t ≠ [] ∧ x.path = q ++ t :=
  goList_encl_below file [] [] 0 (by simp) x hx q hq

theorem pair_sublist_index {x y : Item} :
    ∀ (L : List Item), List.Sublist [x, y] L →
      ∃ a b, a < b ∧ L.get? a = some x ∧ L.get? b = some y := by
  intro L
  induction L with
  | nil => intro h; exact absurd h (by simp)
  | cons c rest ih =>
      intro h
      cases h with
      | cons _ h' =>
          obtain ⟨a, b, hab, ha, hb⟩ := ih h'
          exact ⟨a + 1, b + 1, by omega, by simpa using ha, by simpa using hb⟩
      | cons₂ _ h' =>
          obtain ⟨b, hb⟩ := List.get?_of_mem (List.singleton_sublist.mp h')
          exact ⟨0, b + 1, by omega, rfl, by simpa using hb⟩

theorem get?_path_inj (L : List Item) (hnd : (L.map Item.path).Nodup) {i j : Nat} {x y : Item}
    (hi : L.get? i = some x) (hj : L.get? j = some y) (hp : x.path = y.path) : i = j := by
  have hi' : (L.map Item.path).get? i = some x.path := by rw [List.get?_map, hi]; rfl
  have hj' : (L.map Item.path).get? j = some y.path := by rw [List.get?_map, hj]; rfl
  have hlen : i < (L.map Item.path).length := by
    rw [List.length_map]
    exact List.get?_eq_some.mp hi |>.1
  apply List.get?_inj hlen hnd
  rw [hi', hj', hp]

/-- Strict descent in the tree forces strictly later visitation: the item
whose path properly extends the path of another item is visited strictly
after it.  This is the pre-order discipline of the host traversal. -/
theorem preorder_index_lt (file : List Ast) {i j : Nat} {x y : Item}
    (hi : (preorder file).get? i = some x) (hj : (preorder file).get? j = some y)
    (h : ∃ r, r ≠ [] ∧ y.path = x.path ++ r) : i < j := by
  have hx : x ∈ preorder file := List.get?_mem hi
  have hy : y ∈ preorder file := List.get?_mem hj
  obtain ⟨a, b, hab, ha, hb⟩ :=
    pair_sublist_index (preorder file) (preorder_order file x y hx hy h)
  have hia : i = a := get?_path_inj _ (preorder_path_nodup file) hi ha rfl
  have hjb : j = b := get?_path_inj _ (preorder_path_nodup file) hj hb rfl
  omega

/-! ### Concrete example files -/

/-- The member chain ctx.auth.getUserIdentity. -/
def forbiddenMemberAst : Ast :=
  .member (.member (.ident "ctx") (.ident "auth")) (.ident "getUserIdentity")

/-- The invoked chain ctx.auth.getUserIdentity(). -/
def forbiddenCallAst : Ast := .call forbiddenMemberAst []

/-- Example file: import of query from the generated server module under
the local name q, followed by a direct call q(). -/
def exFileA : List Ast :=
  [ .importDecl "./_generated/server" [.importSpecifier "q" "query"],
    .call (.ident "q") [] ]

theorem preorder_exFileA :
    preorder exFileA =
      [ ⟨[0], .importDecl "./_generated/server" [.importSpecifier "q" "query"], [], false⟩,
        ⟨[1], .call (.ident "q") [], [], false⟩,
        ⟨[1, 0], .ident "q", [], true⟩ ] := by
  simp [preorder, exFileA, goList, go]

/-- Handler literal whose body declares a helper arrow function containing
the invoked forbidden chain and then calls the helper. -/
def exHandler3 : Ast :=
  .arrowFn [.arrowFn [forbiddenCallAst], .call (.ident "helper") []]

/-- Example file: import of authenticatedQuery from the wrapper module and
a wrapper call whose handler nests the forbidden call inside a helper
closure. -/
def exFile3 : List Ast :=
  [ .importDecl "./auth" [.importSpecifier "authenticatedQuery" "authenticatedQuery"],
    .call (.ident "authenticatedQuery")
      [.objectLit [.property (.identKey "args") (.objectLit []),
                   .property (.identKey "handler") exHandler3]] ]

theorem preorder_exFile3 :
    preorder exFile3 =
      [ ⟨[0], .importDecl "./auth"
            [.importSpecifier "authenticatedQuery" "authenticatedQuery"], [], false⟩,
        ⟨[1], .call (.ident "authenticatedQuery")
            [.objectLit [.property (.identKey "args") (.objectLit []),
                         .property (.identKey "handler") exHandler3]], [], false⟩,
        ⟨[1, 0], .ident "authenticatedQuery", [], true⟩,
        ⟨[1, 1], .objectLit [.property (.identKey "args") (.objectLit []),
                             .property (.identKey "handler") exHandler3], [], false⟩,
        ⟨[1, 1, 0], .objectLit [], [], false⟩,
        ⟨[1, 1, 1], exHandler3, [], false⟩,
        ⟨[1, 1, 1, 0], .arrowFn [forbiddenCallAst], [[1, 1, 1]], false⟩,
        ⟨[1, 1, 1, 0, 0], forbiddenCallAst, [[1, 1, 1, 0], [1, 1, 1]], false⟩,
        ⟨[1, 1, 1, 0, 0, 0], forbiddenMemberAst, [[1, 1, 1, 0], [1, 1, 1]], true⟩,
        ⟨[1, 1, 1, 0, 0, 0, 0], .member (.ident "ctx") (.ident "auth"),
            [[1, 1, 1, 0], [1, 1, 1]], false⟩,
        ⟨[1, 1, 1, 0, 0, 0, 0, 0], .ident "ctx", [[1, 1, 1, 0], [1, 1, 1]], false⟩,
        ⟨[1, 1, 1, 0, 0, 0, 0, 1], .ident "auth", [[1, 1, 1, 0], [1, 1, 1]], false⟩,
        ⟨[1, 1, 1, 0, 0, 0, 1], .ident "getUserIdentity",
            [[1, 1, 1, 0], [1, 1, 1]], false⟩,
        ⟨[1, 1, 1, 1], .call (.ident "helper") [], [[1, 1, 1]], false⟩,
        ⟨[1, 1, 1, 1, 0], .ident "helper", [[1, 1, 1]], true⟩ ] := by
  simp [preorder, exFile3, exHandler3, forbiddenCallAst, forbiddenMemberAst,
    goList, go, goProps]

/-- Example file: a registered handler containing the forbidden chain as a
plain property reference that is never invoked. -/
def exFile6 : List Ast :=
  [ .importDecl "./auth" [.importSpecifier "authenticatedQuery" "authenticatedQuery"],
    .call (.ident "authenticatedQuery")
      [.objectLit [.property (.identKey "handler") (.arrowFn [forbiddenMemberAst])]] ]

theorem preorder_exFile6 :
    preorder exFile6 =
      [ ⟨[0], .importDecl "./auth"
            [.importSpecifier "authenticatedQuery" "authenticatedQuery"], [], false⟩,
        ⟨[1], .call (.ident "authenticatedQuery")
            [.objectLit [.property (.identKey "handler")
              (.arrowFn [forbiddenMemberAst])]], [], false⟩,
        ⟨[1, 0], .ident "authenticatedQuery", [], true⟩,
        ⟨[1, 1], .objectLit [.property (.identKey "handler")
            (.arrowFn [forbiddenMemberAst])], [], false⟩,
        ⟨[1, 1, 0], .arrowFn [forbiddenMemberAst], [], false⟩,
        ⟨[1, 1, 0, 0], forbiddenMemberAst, [[1, 1, 0]], false⟩,
        ⟨[1, 1, 0, 0, 0], .member (.ident "ctx") (.ident "auth"), [[1, 1, 0]], false⟩,
        ⟨[1, 1, 0, 0, 0, 0], .ident "ctx", [[1, 1, 0]], false⟩,
        ⟨[1, 1, 0, 0, 0, 1], .ident "auth", [[1, 1, 0]], false⟩,
        ⟨[1, 1, 0, 0, 1], .ident "getUserIdentity", [[1, 1, 0]], false⟩ ] := by
  simp [preorder, exFile6, forbiddenMemberAst, goList, go, goProps]

/-- Example file: the wrapper call writes the handler property with a
string-literal key, and the handler contains the invoked forbidden chain. -/
def exFile10 : List Ast :=
  [ .importDecl "./auth" [.importSpecifier "authenticatedQuery" "authenticatedQuery"],
    .call (.ident "authenticatedQuery")
      [.objectLit [.property (.litKey "handler") (.arrowFn [forbiddenCallAst])]] ]

theorem preorder_exFile10 :
    preorder exFile10 =
      [ ⟨[0], .importDecl "./auth"
            [.importSpecifier "authenticatedQuery" "authenticatedQuery"], [], false⟩,
        ⟨[1], .call (.ident "authenticatedQuery")
            [.objectLit [.property (.litKey "handler")
              (.arrowFn [forbiddenCallAst])]], [], false⟩,
        ⟨[1, 0], .ident "authenticatedQuery", [], true⟩,
        ⟨[1, 1], .objectLit [.property (.litKey "handler")
            (.arrowFn [forbiddenCallAst])], [], false⟩,
        ⟨[1, 1, 0], .arrowFn [forbiddenCallAst], [], false⟩,
        ⟨[1, 1, 0, 0], forbiddenCallAst, [[1, 1, 0]], false⟩,
        ⟨[1, 1, 0, 0, 0], forbiddenMemberAst, [[1, 1, 0]], true⟩,
        ⟨[1, 1, 0, 0, 0, 0], .member (.ident "ctx") (.ident "auth"), [[1, 1, 0]], false⟩,
        ⟨[1, 1, 0, 0, 0, 0, 0], .ident "ctx", [[1, 1, 0]], false⟩,
        ⟨[1, 1, 0, 0, 0, 0, 1], .ident "auth", [[1, 1, 0]], false⟩,
        ⟨[1, 1, 0, 0, 0, 1], .ident "getUserIdentity", [[1, 1, 0]], false⟩ ] := by
  simp [preorder, exFile10, forbiddenCallAst, forbiddenMemberAst, goList, go, goProps]

/-! ### Claims -/

/-- C1: for every call expression visited in a rule A file pass, a
diagnostic is emitted for that call site (at its callee child) if and only
if the callee is a plain identifier that the alias table, as built at check
time from imports of query or mutation from a generated-server module path,
resolves to a banned canonical name, and the file path does not match the
exempt suffix. -/
theorem ruleA_flags_call_iff (fname : String) (file : List Ast) (i : Nat) (it : Item)
    (callee : Ast) (args : List Ast)
    (hit : (preorder file).get? i = some it) (hnode : it.node = .call callee args) :
    (∃ d ∈ lintRuleA fname file, d.loc = it.path ++ [0]) ↔
      (isAuthFile fname = false ∧ ∃ X v, callee = .ident X ∧
        List.lookup X (tableAt file i) = some v ∧ (v = "query" ∨ v = "mutation")) := by
  constructor
  · rintro ⟨d, hd, hloc⟩
    cases hfn : isAuthFile fname with
    | true =>
        simp [lintRuleA, hfn] at hd
    | false =>
        refine ⟨rfl, ?_⟩
        have hlint : lintRuleA fname file = (runOn handlerA [] (preorder file)).2 := by
          simp [lintRuleA, hfn]
        rw [hlint] at hd
        obtain ⟨j, jt, hjt, hmem⟩ := (runOn_mem handlerA d (preorder file) []).mp hd
        obtain ⟨X, args', v, hjn, hlook, hvd⟩ := handlerA_diag_shape _ jt d hmem
        have hdl : d.loc = jt.path ++ [0] := by
          rcases hvd with ⟨_, rfl⟩ | ⟨_, rfl⟩ <;> rfl
        rw [hdl] at hloc
        have hpaths : jt.path = it.path := List.append_cancel_right hloc
        have hji : j = i := get?_path_inj _ (preorder_path_nodup file) hjt hit hpaths
        subst hji
        rw [hit] at hjt
        obtain rfl : it = jt := Option.some.inj hjt
        rw [hnode] at hjn
        refine ⟨X, v, (Ast.call.inj hjn).1, hlook, ?_⟩
        rcases hvd with ⟨hv, _⟩ | ⟨hv, _⟩
        · exact Or.inl hv
        · exact Or.inr hv
  · rintro ⟨hfn, X, v, rfl, hlook, hv⟩
    have hemit := handlerA_call_emits (tableAt file i) it X args v hnode hlook hv
    have hlint : lintRuleA fname file = (runOn handlerA [] (preorder file)).2 := by
      simp [lintRuleA, hfn]
    refine ⟨⟨if v == "query" then .useAuthenticatedQuery else .useAuthenticatedMutation,
      it.path ++ [0]⟩, ?_, rfl⟩
    rw [hlint]
    apply (runOn_mem handlerA _ (preorder file) []).mpr
    refine ⟨i, it, hit, ?_⟩
    have : (handlerA (stateAt handlerA [] (preorder file) i) it).2 =
        [⟨if v == "query" then .useAuthenticatedQuery else .useAuthenticatedMutation,
          it.path ++ [0]⟩] := hemit
    rw [this]
    simp

/-- Witness for C1: in exFileA the call at path one has its callee resolved
through the alias table to query, and a diagnostic is emitted at the
callee. -/
theorem ruleA_flags_call_iff_witness :
    ∃ d ∈ lintRuleA "convex/notes.ts" exFileA, d.loc = [1, 0] := by
  apply (ruleA_flags_call_iff "convex/notes.ts" exFileA 1
    ⟨[1], .call (.ident "q") [], [], false⟩ (.ident "q") []
    (by rw [preorder_exFileA]; rfl) rfl).mpr
  refine ⟨by decide, "q", "query", rfl, ?_, Or.inl rfl⟩
  show List.lookup "q" (stateAt handlerA [] (preorder exFileA) 1) = some "query"
  rw [preorder_exFileA]
  decide

/-- C4: when the file path ends with the exempt suffix under either path
separator convention, both rules install no handlers and the file pass of
each rule reports nothing, whatever the file contains. -/
theorem exempt_file_no_diagnostics (fname : String) (file : List Ast)
    (h : strClosesWith fname "convex/auth.ts" = true ∨
         strClosesWith fname "convex\\auth.ts" = true) :
    lintRuleA fname file = [] ∧ lintRuleB fname file = [] := by
  have hfn : isAuthFile fname = true := by
    rcases h with h | h <;> simp [isAuthFile, h]
  constructor <;> simp [lintRuleA, lintRuleB, hfn]

/-- Witness for C4: the exempt file name silences both rules even on a file
that calls a banned factory. -/
theorem exempt_file_no_diagnostics_witness :
    lintRuleA "proj/convex/auth.ts" exFileA = [] ∧
    lintRuleB "proj/convex/auth.ts" exFileA = [] :=
  exempt_file_no_diagnostics "proj/convex/auth.ts" exFileA (Or.inl (by decide))

/-- C5: a direct call of any local name that the alias table resolves at
check time to a banned canonical name, in a non-exempt file, yields exactly
one diagnostic, whose message identifier corresponds to the banned symbol
and which sits at the callee child of the call.  The local name is
arbitrary, so renamed imports behave identically. -/
theorem aliased_call_single_diag (fname : String) (file : List Ast) (i : Nat) (it : Item)
    (X : String) (args : List Ast) (v : String)
    (hfn : isAuthFile fname = false)
    (hit : (preorder file).get? i = some it)
    (hnode : it.node = .call (.ident X) args)
    (hres : List.lookup X (tableAt file i) = some v)
    (hv : v = "query" ∨ v = "mutation") :
    (lintRuleA fname file).filter (fun d => d.loc == it.path ++ [0]) =
      [⟨if v == "query" then .useAuthenticatedQuery else .useAuthenticatedMutation,
        it.path ++ [0]⟩] := by
  have hemit := handlerA_call_emits (tableAt file i) it X args v hnode hres hv
  have hlint : lintRuleA fname file = (runOn handlerA [] (preorder file)).2 := by
    simp [lintRuleA, hfn]
  rw [hlint]
  apply runOn_filter_single handlerA _ (preorder file) [] i it _ hit
  · have : (handlerA (stateAt handlerA [] (preorder file) i) it).2 =
        [⟨if v == "query" then .useAuthenticatedQuery else .useAuthenticatedMutation,
          it.path ++ [0]⟩] := hemit
    rw [this]
    simp
  · intro j jt hjt hne d hd
    obtain ⟨X', args', v', hjn, hlook', hvd⟩ := handlerA_diag_shape _ jt d hd
    have hdl : d.loc = jt.path ++ [0] := by
      rcases hvd with ⟨_, rfl⟩ | ⟨_, rfl⟩ <;> rfl
    rw [hdl]
    apply beq_eq_false_iff_ne.mpr
    intro heq
    exact hne (get?_path_inj _ (preorder_path_nodup file) hjt hit
      (List.append_cancel_right heq))

/-- Witness for C5: the renamed import q of query in exFileA produces
exactly the one useAuthenticatedQuery diagnostic at the callee. -/
theorem aliased_call_single_diag_witness :
    (lintRuleA "convex/notes.ts" exFileA).filter (fun d => d.loc == [1] ++ [0]) =
      [⟨.useAuthenticatedQuery, [1] ++ [0]⟩] := by
  have h := aliased_call_single_diag "convex/notes.ts" exFileA 1
    ⟨[1], .call (.ident "q") [], [], false⟩ "q" [] "query"
    (by decide) (by rw [preorder_exFileA]; rfl) rfl
    (by show List.lookup "q" (stateAt handlerA [] (preorder exFileA) 1) = some "query"
        rw [preorder_exFileA]
        decide)
    (Or.inl rfl)
  simpa using h

/-- C2 counterexample: in exFile3 the invoked forbidden chain at path
[1,1,1,0,0,0] has as its nearest enclosing function literal the helper at
path [1,1,1,0], which does not belong to the registered set at check time
(the scope chain is listed innermost first, so the helper is its head);
Rule B nevertheless emits a diagnostic at the member, so the claim that a
diagnostic is emitted if and only if the nearest enclosing function literal
is registered fails on this input. -/
theorem ruleB_nearest_only_refuted :
    (∃ d ∈ lintRuleB "convex/notes.ts" exFile3, d.loc = [1, 1, 1, 0, 0, 0]) ∧
    (preorder exFile3).get? 8 =
      some ⟨[1, 1, 1, 0, 0, 0], forbiddenMemberAst, [[1, 1, 1, 0], [1, 1, 1]], true⟩ ∧
    ¬ [1, 1, 1, 0] ∈ (stateAtB exFile3 8).registered := by
  have hfn : isAuthFile "convex/notes.ts" = false := by decide
  have hrun : lintRuleB "convex/notes.ts" exFile3 =
      [⟨.useContextIdentity, [1, 1, 1, 0, 0, 0]⟩] := by
    have hlint : lintRuleB "convex/notes.ts" exFile3 =
        (runOn handlerB initB (preorder exFile3)).2 := by
      simp [lintRuleB, hfn]
    rw [hlint, preorder_exFile3]
    decide
  refine ⟨⟨⟨.useContextIdentity, [1, 1, 1, 0, 0, 0]⟩, by rw [hrun]; simp, rfl⟩,
    by rw [preorder_exFile3]; rfl, ?_⟩
  show ¬ [1, 1, 1, 0] ∈ (stateAt handlerB initB (preorder exFile3) 8).registered
  rw [preorder_exFile3]
  decide

/-- C2 amended: for every item visited in a rule B file pass, a diagnostic
is emitted at that item if and only if the file is not exempt, the item is
a member matching the forbidden three-segment pattern, the whole chain is
the callee of its parent call, and some function literal of the lexical
scope chain (not necessarily the nearest: the outward walk continues past
unregistered function literals) belongs to RestrictedScopeRoot at check
time. -/
theorem ruleB_flags_member_iff (fname : String) (file : List Ast) (j : Nat) (itJ : Item)
    (hit : (preorder file).get? j = some itJ) :
    (∃ d ∈ lintRuleB fname file, d.loc = itJ.path) ↔
      (isAuthFile fname = false ∧ isForbiddenShape itJ.node = true ∧
       itJ.isCalleeOfCall = true ∧
       ∃ q ∈ itJ.encl, q ∈ (stateAtB file j).registered) := by
  constructor
  · rintro ⟨d, hd, hloc⟩
    cases hfn : isAuthFile fname with
    | true => simp [lintRuleB, hfn] at hd
    | false =>
        have hlint : lintRuleB fname file = (runOn handlerB initB (preorder file)).2 := by
          simp [lintRuleB, hfn]
        rw [hlint] at hd
        obtain ⟨j', jt, hjt, hmem⟩ := (runOn_mem handlerB d (preorder file) initB).mp hd
        obtain ⟨hdval, hshape, hcallee, q, hq, hreg⟩ := handlerB_diag_shape _ jt d hmem
        have hpaths : jt.path = itJ.path := by rw [hdval] at hloc; exact hloc
        have hji : j' = j := get?_path_inj _ (preorder_path_nodup file) hjt hit hpaths
        subst hji
        rw [hit] at hjt
        obtain rfl : itJ = jt := Option.some.inj hjt
        exact ⟨rfl, hshape, hcallee, q, hq, hreg⟩
  · rintro ⟨hfn, hshape, hcallee, q, hq, hreg⟩
    have hemit := handlerB_member_emits (stateAtB file j) itJ hshape hcallee q hq hreg
    have hlint : lintRuleB fname file = (runOn handlerB initB (preorder file)).2 := by
      simp [lintRuleB, hfn]
    refine ⟨⟨.useContextIdentity, itJ.path⟩, ?_, rfl⟩
    rw [hlint]
    apply (runOn_mem handlerB _ (preorder file) initB).mpr
    refine ⟨j, itJ, hit, ?_⟩
    have : (handlerB (stateAt handlerB initB (preorder file) j) itJ).2 =
        [⟨.useContextIdentity, itJ.path⟩] := hemit
    rw [this]
    simp

/-- Witness for the amended C2 at exFile3: the member item at position
eight satisfies the conditions, with the outer handler (not the nearest
helper) registered, and the diagnostic exists. -/
theorem ruleB_flags_member_iff_witness :
    ∃ d ∈ lintRuleB "convex/notes.ts" exFile3, d.loc = [1, 1, 1, 0, 0, 0] := by
  apply (ruleB_flags_member_iff "convex/notes.ts" exFile3 8
    ⟨[1, 1, 1, 0, 0, 0], forbiddenMemberAst, [[1, 1, 1, 0], [1, 1, 1]], true⟩
    (by rw [preorder_exFile3]; rfl)).mpr
  refine ⟨by decide, by decide, rfl, [1, 1, 1], by simp, ?_⟩
  show [1, 1, 1] ∈ (stateAt handlerB initB (preorder exFile3) 8).registered
  rw [preorder_exFile3]
  decide

/-- C3: when a wrapper call item registers a handler path, and the invoked
forbidden chain sits inside a helper function nested inside that handler
(the registered path occurs in the scope chain but not as its innermost
entry), the file pass still emits exactly one useContextIdentity diagnostic
at the member node: the outward walk considers every enclosing function
literal, not only the immediately surrounding one. -/
theorem nested_helper_still_flagged (fname : String) (file : List Ast)
    (i j : Nat) (itI itJ : Item) (ph : List Nat)
    (hfn : isAuthFile fname = false)
    (hI : (preorder file).get? i = some itI)
    (hreg : handlerRegistration (stateAtB file i) itI = some ph)
    (hJ : (preorder file).get? j = some itJ)
    (hshape : isForbiddenShape itJ.node = true)
    (hcallee : itJ.isCalleeOfCall = true)
    (hmem : ph ∈ itJ.encl)
    (_hnested : itJ.encl.head? ≠ some ph) :
    (lintRuleB fname file).filter (fun d => d.loc == itJ.path) =
      [⟨.useContextIdentity, itJ.path⟩] := by
  obtain ⟨n, args, props, rest, jdx, v, hInode, _, _, _, _, hphpath⟩ :=
    handlerRegistration_some_shape _ itI ph hreg
  have hJmem : itJ ∈ preorder file := List.get?_mem hJ
  obtain ⟨t, htne, hJt⟩ := preorder_encl_below file itJ hJmem ph hmem
  have hlt : i < j := by
    apply preorder_index_lt file hI hJ
    refine ⟨[1, jdx] ++ t, by simp, ?_⟩
    rw [hJt, hphpath, List.append_assoc]
  have hreg' : ph ∈ (stateAtB file j).registered := by
    have hsucc : (stateAtB file (i + 1)).registered =
        ph :: (stateAtB file i).registered := by
      show (stateAt handlerB initB (preorder file) (i + 1)).registered = _
      rw [stateAt_succ, hI]
      exact (handlerB_reg_some _ itI ph hreg).1
    apply stateAtB_registered_mono file (i + 1) j hlt
    rw [hsucc]
    simp
  have hemit := handlerB_member_emits (stateAtB file j) itJ hshape hcallee ph hmem hreg'
  have hlint : lintRuleB fname file = (runOn handlerB initB (preorder file)).2 := by
    simp [lintRuleB, hfn]
  rw [hlint]
  apply runOn_filter_single handlerB _ (preorder file) initB j itJ _ hJ
  · have : (handlerB (stateAt handlerB initB (preorder file) j) itJ).2 =
        [⟨.useContextIdentity, itJ.path⟩] := hemit
    rw [this]
    simp
  · intro k kt hkt hne d hd
    obtain ⟨hdval, _, _, _⟩ := handlerB_diag_shape _ kt d hd
    rw [hdval]
    apply beq_eq_false_iff_ne.mpr
    intro heq
    exact hne (get?_path_inj _ (preorder_path_nodup file) hkt hJ heq)

/-- Witness for C3 at exFile3: the wrapper call at position one registers
the handler path, the forbidden call sits inside the nested helper, and
exactly one diagnostic appears at the member. -/
theorem nested_helper_still_flagged_witness :
    (lintRuleB "convex/notes.ts" exFile3).filter
        (fun d => d.loc == [1, 1, 1, 0, 0, 0]) =
      [⟨.useContextIdentity, [1, 1, 1, 0, 0, 0]⟩] := by
  have h := nested_helper_still_flagged "convex/notes.ts" exFile3 1 8
    ⟨[1], .call (.ident "authenticatedQuery")
      [.objectLit [.property (.identKey "args") (.objectLit []),
                   .property (.identKey "handler") exHandler3]], [], false⟩
    ⟨[1, 1, 1, 0, 0, 0], forbiddenMemberAst, [[1, 1, 1, 0], [1, 1, 1]], true⟩
    [1, 1, 1]
    (by decide)
    (by rw [preorder_exFile3]; rfl)
    (by show handlerRegistration (stateAt handlerB initB (preorder exFile3) 1) _ =
          some [1, 1, 1]
        rw [preorder_exFile3]
        decide)
    (by rw [preorder_exFile3]; rfl)
    (by decide) rfl (by decide) (by decide)
  exact h

/-- C6: rule B reports only invoked forbidden chains: every diagnostic of a
rule B pass sits at a member item matching the forbidden pattern that is
itself the callee of its parent call expression, and a forbidden-pattern
member that is not the callee of a call never receives a diagnostic at its
location, even inside a registered restricted scope. -/
theorem ruleB_requires_invocation (fname : String) (file : List Ast) :
    (∀ d ∈ lintRuleB fname file, ∃ j itJ, (preorder file).get? j = some itJ ∧
      d = ⟨.useContextIdentity, itJ.path⟩ ∧ isForbiddenShape itJ.node = true ∧
      itJ.isCalleeOfCall = true) ∧
    (∀ j itJ, (preorder file).get? j = some itJ → isForbiddenShape itJ.node = true →
      itJ.isCalleeOfCall = false → ∀ d ∈ lintRuleB fname file, d.loc ≠ itJ.path) := by
  constructor
  · intro d hd
    cases hfn : isAuthFile fname with
    | true => simp [lintRuleB, hfn] at hd
    | false =>
        have hlint : lintRuleB fname file = (runOn handlerB initB (preorder file)).2 := by
          simp [lintRuleB, hfn]
        rw [hlint] at hd
        obtain ⟨j, jt, hjt, hmem⟩ := (runOn_mem handlerB d (preorder file) initB).mp hd
        obtain ⟨hdval, hshape, hcallee, _⟩ := handlerB_diag_shape _ jt d hmem
        exact ⟨j, jt, hjt, hdval, hshape, hcallee⟩
  · intro j itJ hit hshape hncallee d hd hloc
    cases hfn : isAuthFile fname with
    | true => simp [lintRuleB, hfn] at hd
    | false =>
        have hlint : lintRuleB fname file = (runOn handlerB initB (preorder file)).2 := by
          simp [lintRuleB, hfn]
        rw [hlint] at hd
        obtain ⟨k, kt, hkt, hmem⟩ := (runOn_mem handlerB d (preorder file) initB).mp hd
        obtain ⟨hdval, _, hcallee, _⟩ := handlerB_diag_shape _ kt d hmem
        have hpaths : kt.path = itJ.path := by rw [hdval] at hloc; exact hloc
        have hkj : k = j := get?_path_inj _ (preorder_path_nodup file) hkt hit hpaths
        subst hkj
        rw [hit] at hkt
        obtain rfl : itJ = kt := Option.some.inj hkt
        rw [hncallee] at hcallee
        simp at hcallee

/-- Witness for C6 at exFile6: the uninvoked forbidden chain inside the
registered handler never receives a diagnostic. -/
theorem ruleB_requires_invocation_witness :
    ∀ d ∈ lintRuleB "convex/notes.ts" exFile6, d.loc ≠ [1, 1, 0, 0] := by
  have h := (ruleB_requires_invocation "convex/notes.ts" exFile6).2 5
    ⟨[1, 1, 0, 0], forbiddenMemberAst, [[1, 1, 0]], false⟩
    (by rw [preorder_exFile6]; rfl) (by decide) rfl
  exact h

/-- C7: registration of a handler function literal happens at the visit of
the wrapper call item, strictly before the traversal reaches any item
inside the handler subtree, so the rule B state observed by every item
whose path extends the registered path already holds that path. -/
theorem registration_precedes_descent (file : List Ast) (i j : Nat)
    (itI itJ : Item) (ph : List Nat)
    (hI : (preorder file).get? i = some itI)
    (hreg : handlerRegistration (stateAtB file i) itI = some ph)
    (hJ : (preorder file).get? j = some itJ)
    (hin : ∃ r, r ≠ [] ∧ itJ.path = ph ++ r) :
    i < j ∧ ph ∈ (stateAtB file j).registered := by
  obtain ⟨n, args, props, rest, jdx, v, hInode, _, _, _, _, hphpath⟩ :=
    handlerRegistration_some_shape _ itI ph hreg
  obtain ⟨r, hrne, hrJ⟩ := hin
  have hlt : i < j := by
    apply preorder_index_lt file hI hJ
    refine ⟨[1, jdx] ++ r, by simp, ?_⟩
    rw [hrJ, hphpath, List.append_assoc]
  refine ⟨hlt, ?_⟩
  have hsucc : (stateAtB file (i + 1)).registered =
      ph :: (stateAtB file i).registered := by
    show (stateAt handlerB initB (preorder file) (i + 1)).registered = _
    rw [stateAt_succ, hI]
    exact (handlerB_reg_some _ itI ph hreg).1
  apply stateAtB_registered_mono file (i + 1) j hlt
  rw [hsucc]
  simp

/-- Witness for C7 at exFile3: the wrapper call at position one registers
the handler path, and the helper item inside the handler body at position
six observes the registration. -/
theorem registration_precedes_descent_witness :
    1 < 6 ∧ [1, 1, 1] ∈ (stateAtB exFile3 6).registered := by
  apply registration_precedes_descent exFile3 1 6
    ⟨[1], .call (.ident "authenticatedQuery")
      [.objectLit [.property (.identKey "args") (.objectLit []),
                   .property (.identKey "handler") exHandler3]], [], false⟩
    ⟨[1, 1, 1, 0], .arrowFn [forbiddenCallAst], [[1, 1, 1]], false⟩
    [1, 1, 1]
    (by rw [preorder_exFile3]; rfl)
    (by show handlerRegistration (stateAt handlerB initB (preorder exFile3) 1) _ =
          some [1, 1, 1]
        rw [preorder_exFile3]
        decide)
    (by rw [preorder_exFile3]; rfl)
    ⟨[0], by simp, rfl⟩

/-! ### Silent degradation of malformed shapes -/

theorem registerImportsA_noop : ∀ (specs : List ImportSpec) (tbl : AliasTable),
    (∀ l im, ImportSpec.importSpecifier l im ∈ specs →
      im ≠ "query" ∧ im ≠ "mutation") →
    registerImportsA tbl specs = tbl := by
  intro specs
  induction specs with
  | nil => intro tbl _; rfl
  | cons sp rest ih =>
      intro tbl hno
      cases sp with
      | importSpecifier l im =>
          have hni := hno l im (List.mem_cons_self _ _)
          have hcond : (im == "query" || im == "mutation") = false := by
            simp [hni.1, hni.2]
          simp only [registerImportsA, List.foldl_cons, hcond, Bool.false_eq_true,
            if_false]
          exact ih tbl (fun l' im' h => hno l' im' (List.mem_cons_of_mem _ h))
      | otherSpecifier l =>
          simp only [registerImportsA, List.foldl_cons]
          exact ih tbl (fun l' im' h => hno l' im' (List.mem_cons_of_mem _ h))

theorem registerImportsB_noop : ∀ (specs : List ImportSpec) (imps : List String),
    (∀ l im, ImportSpec.importSpecifier l im ∈ specs →
      im ≠ "authenticatedQuery" ∧ im ≠ "authenticatedMutation") →
    registerImportsB imps specs = imps := by
  intro specs
  induction specs with
  | nil => intro imps _; rfl
  | cons sp rest ih =>
      intro imps hno
      cases sp with
      | importSpecifier l im =>
          have hni := hno l im (List.mem_cons_self _ _)
          have hcond : (im == "authenticatedQuery" || im == "authenticatedMutation") =
              false := by
            simp [hni.1, hni.2]
          simp only [registerImportsB, List.foldl_cons, hcond, Bool.false_eq_true,
            if_false]
          exact ih imps (fun l' im' h => hno l' im' (List.mem_cons_of_mem _ h))
      | otherSpecifier l =>
          simp only [registerImportsB, List.foldl_cons]
          exact ih imps (fun l' im' h => hno l' im' (List.mem_cons_of_mem _ h))

/-- C8: the engine is total on malformed shapes: a handler property whose
value is not a function literal registers nothing and reports nothing; a
tracked-wrapper call whose first argument is not an object literal
registers nothing and reports nothing; an import declaration with no
matching specifiers leaves the state of either rule unchanged and reports
nothing.  Each handler is a total function, so every file pass yields a
finite diagnostic list. -/
theorem malformed_shapes_degrade :
    (∀ (st : StB) (it : Item) (n : String) (props : List ObjProp) (rest : List Ast)
        (jdx : Nat) (v : Ast),
      it.node = .call (.ident n) (.objectLit props :: rest) →
      findHandlerIdx 0 props = some (jdx, v) → isFunctionLiteral v = false →
      handlerB st it = (st, [])) ∧
    (∀ (st : StB) (it : Item) (n : String) (args : List Ast),
      it.node = .call (.ident n) args →
      (∀ props rest, args ≠ .objectLit props :: rest) →
      handlerB st it = (st, [])) ∧
    (∀ (st : StB) (tbl : AliasTable) (it : Item) (src : String)
        (specs : List ImportSpec),
      it.node = .importDecl src specs →
      (∀ l im, ImportSpec.importSpecifier l im ∈ specs →
        im ≠ "query" ∧ im ≠ "mutation" ∧
        im ≠ "authenticatedQuery" ∧ im ≠ "authenticatedMutation") →
      handlerA tbl it = (tbl, []) ∧ handlerB st it = (st, [])) := by
  refine ⟨?_, ?_, ?_⟩
  · intro st it n props rest jdx v hnode hfind hnfl
    have hregnone : handlerRegistration st it = none := by
      simp only [handlerRegistration, hnode]
      cases hc : st.authenticatedImports.contains n with
      | false => simp
      | true => simp [hfind, hnfl]
    simp [handlerB, hnode, hregnone]
  · intro st it n args hnode hne
    have hregnone : handlerRegistration st it = none := by
      simp only [handlerRegistration, hnode]
      cases hc : st.authenticatedImports.contains n with
      | false => simp
      | true =>
          cases args with
          | nil => simp
          | cons a rest =>
              cases a
              case objectLit props => exact absurd rfl (hne props rest)
              all_goals simp
    simp [handlerB, hnode, hregnone]
  · intro st tbl it src specs hnode hno
    constructor
    · have hA : registerImportsA tbl specs = tbl :=
        registerImportsA_noop specs tbl
          (fun l im hm => ⟨(hno l im hm).1, (hno l im hm).2.1⟩)
      simp only [handlerA, hnode]
      split
      · rw [hA]
      · rfl
    · have hB : registerImportsB st.authenticatedImports specs =
          st.authenticatedImports :=
        registerImportsB_noop specs st.authenticatedImports
          (fun l im hm => ⟨(hno l im hm).2.2.1, (hno l im hm).2.2.2⟩)
      simp only [handlerB, hnode]
      split
      · rw [hB]
      · rfl

/-- Witness for C8: a string-valued handler property, a non-object first
argument, and an import of an unrelated name all degrade to no state change
and no diagnostic. -/
theorem malformed_shapes_degrade_witness :
    handlerB ⟨["f"], []⟩
      ⟨[0], .call (.ident "f")
        [.objectLit [.property (.identKey "handler") (.strLit "x")]], [], false⟩ =
      (⟨["f"], []⟩, []) ∧
    handlerB ⟨["f"], []⟩ ⟨[0], .call (.ident "f") [.strLit "y"], [], false⟩ =
      (⟨["f"], []⟩, []) ∧
    handlerA [] ⟨[0], .importDecl "./_generated/server"
      [.importSpecifier "db" "db"], [], false⟩ = ([], []) ∧
    handlerB initB ⟨[0], .importDecl "./_generated/server"
      [.importSpecifier "db" "db"], [], false⟩ = (initB, []) := by
  have hspec : ∀ l im, ImportSpec.importSpecifier l im ∈
      [ImportSpec.importSpecifier "db" "db"] →
      im ≠ "query" ∧ im ≠ "mutation" ∧
      im ≠ "authenticatedQuery" ∧ im ≠ "authenticatedMutation" := by
    intro l im hm
    simp at hm
    obtain ⟨rfl, rfl⟩ := hm
    exact ⟨by decide, by decide, by decide, by decide⟩
  refine ⟨?_, ?_, ?_, ?_⟩
  · exact malformed_shapes_degrade.1 ⟨["f"], []⟩ _ "f"
      [.property (.identKey "handler") (.strLit "x")] [] 0 (.strLit "x") rfl rfl rfl
  · exact malformed_shapes_degrade.2.1 ⟨["f"], []⟩ _ "f" [.strLit "y"] rfl
      (by intro props rest h; simp at h)
  · exact (malformed_shapes_degrade.2.2 initB [] _ "./_generated/server"
      [.importSpecifier "db" "db"] rfl hspec).1
  · exact (malformed_shapes_degrade.2.2 initB [] _ "./_generated/server"
      [.importSpecifier "db" "db"] rfl hspec).2

/-! ### The authenticated wrapper factory (src/src/index.ts) -/

/-- Identity value resolved by ctx.auth.getUserIdentity. -/
structure UserIdentity where
  subject : String
deriving DecidableEq, Repr

/-- Runtime context as the wrapper sees it: the underlying Convex context
abstracted as base, together with the outcome of the asynchronous call
ctx.auth.getUserIdentity(), which resolves to an identity or to null. -/
structure CtxModel (C : Type) where
  base : C
  getUserIdentity : Option UserIdentity

/-- Context handed to the user handler: the spread copy of the incoming
context extended with the resolved identity field. -/
structure AuthedCtx (C : Type) where
  base : C
  identity : UserIdentity

/-- Definition record accepted by the wrappers (src/src/index.ts lines 42
to 48): the argument validators do not influence control flow and are
abstracted as a field of an arbitrary type. -/
structure FnDefinition (C A R V : Type) where
  args : V
  handler : AuthedCtx C → A → R

/-- Registered function produced by a wrapper: the handler the wrapper
passes to the query or mutation builder.  The builder itself only registers
the definition, which is how the unit tests mock it, so the model exposes
the wrapped handler directly; a thrown error is an Except.error. -/
structure BuiltFn (C A R : Type) where
  handler : CtxModel C → A → Except String R

/-- Wrapper authenticatedQuery (src/src/index.ts lines 39 to 62): the
wrapped handler awaits ctx.auth.getUserIdentity(), throws Not authenticated
when it is null, and otherwise calls the user handler on the extended
context with the original arguments. -/
def authenticatedQuery {C A R V : Type} (definition : FnDefinition C A R V) :
    BuiltFn C A R :=
  ⟨fun ctx args =>
    match ctx.getUserIdentity with
    | none => .error "Not authenticated"
    | some identity => .ok (definition.handler ⟨ctx.base, identity⟩ args)⟩

/-- Wrapper authenticatedMutation (src/src/index.ts lines 67 to 90),
structurally identical to authenticatedQuery. -/
def authenticatedMutation {C A R V : Type} (definition : FnDefinition C A R V) :
    BuiltFn C A R :=
  ⟨fun ctx args =>
    match ctx.getUserIdentity with
    | none => .error "Not authenticated"
    | some identity => .ok (definition.handler ⟨ctx.base, identity⟩ args)⟩

/-- C9: the wrapped handler of either wrapper first resolves the identity;
when it is null it throws Not authenticated without invoking the user
handler (the outcome is identical for every user handler), and otherwise it
invokes the user handler on the context extended with the identity field
and returns its result. -/
theorem authenticated_wrapper_behavior {C A R V : Type}
    (definition : FnDefinition C A R V) (ctx : CtxModel C) (args : A) :
    (ctx.getUserIdentity = none →
      (authenticatedQuery definition).handler ctx args = .error "Not authenticated" ∧
      (authenticatedMutation definition).handler ctx args =
        .error "Not authenticated" ∧
      ∀ definition' : FnDefinition C A R V,
        (authenticatedQuery definition').handler ctx args =
          (authenticatedQuery definition).handler ctx args ∧
        (authenticatedMutation definition').handler ctx args =
          (authenticatedMutation definition).handler ctx args) ∧
    (∀ identity, ctx.getUserIdentity = some identity →
      (authenticatedQuery definition).handler ctx args =
        .ok (definition.handler ⟨ctx.base, identity⟩ args) ∧
      (authenticatedMutation definition).handler ctx args =
        .ok (definition.handler ⟨ctx.base, identity⟩ args)) := by
  constructor
  · intro hnone
    refine ⟨by simp [authenticatedQuery, hnone],
      by simp [authenticatedMutation, hnone], ?_⟩
    intro definition'
    constructor <;> simp [authenticatedQuery, authenticatedMutation, hnone]
  · intro identity hsome
    constructor <;> simp [authenticatedQuery, authenticatedMutation, hsome]

/-- Witness for C9 at a concrete context: a null identity throws, a present
identity reaches the user handler with the identity field set. -/
theorem authenticated_wrapper_behavior_witness :
    (authenticatedQuery
      (⟨0, fun c _ => c.identity.subject⟩ : FnDefinition Nat Unit String Nat)).handler
        ⟨5, none⟩ () = .error "Not authenticated" ∧
    (authenticatedQuery
      (⟨0, fun c _ => c.identity.subject⟩ : FnDefinition Nat Unit String Nat)).handler
        ⟨5, some ⟨"u1"⟩⟩ () = .ok "u1" := by
  constructor
  · exact ((authenticated_wrapper_behavior
      ⟨0, fun c _ => c.identity.subject⟩ ⟨5, none⟩ ()).1 rfl).1
  · exact ((authenticated_wrapper_behavior
      ⟨0, fun c _ => c.identity.subject⟩ ⟨5, some ⟨"u1"⟩⟩ ()).2 ⟨"u1"⟩ rfl).1

/-! ### String-literal handler keys -/

theorem findHandlerIdx_skips : ∀ (props : List ObjProp) (jdx : Nat),
    (∀ v, ObjProp.property (.identKey "handler") v ∉ props) →
    findHandlerIdx jdx props = none := by
  intro props
  induction props with
  | nil => intro jdx _; rfl
  | cons pr rest ih =>
      intro jdx hno
      cases pr with
      | property key v =>
          cases key with
          | identKey k =>
              by_cases hk : k = "handler"
              · subst hk
                exact absurd (List.mem_cons_self _ _) (hno v)
              · have hcond : (k == "handler") = false := by simp [hk]
                simp only [findHandlerIdx, hcond, Bool.false_eq_true, if_false]
                exact ih (jdx + 1)
                  (fun v' hv' => hno v' (List.mem_cons_of_mem _ hv'))
          | litKey s =>
              simp only [findHandlerIdx]
              exact ih (jdx + 1)
                (fun v' hv' => hno v' (List.mem_cons_of_mem _ hv'))
          | otherKey =>
              simp only [findHandlerIdx]
              exact ih (jdx + 1)
                (fun v' hv' => hno v' (List.mem_cons_of_mem _ hv'))
      | spread a =>
          simp only [findHandlerIdx]
          exact ih (jdx + 1)
            (fun v' hv' => hno v' (List.mem_cons_of_mem _ hv'))

/-- C10: a wrapper call whose first argument holds the handler function
under a string-literal key never registers it: the property search matches
only identifier keys, so the registration decision yields none, and in the
concrete file exFile10, whose handler contains the invoked forbidden chain,
rule B reports nothing. -/
theorem string_key_handler_never_registered :
    (∀ (props : List ObjProp) (jdx : Nat),
      (∀ v, ObjProp.property (.identKey "handler") v ∉ props) →
      findHandlerIdx jdx props = none) ∧
    (∀ (st : StB) (it : Item) (n : String) (props : List ObjProp) (rest : List Ast),
      it.node = .call (.ident n) (.objectLit props :: rest) →
      (∀ v, ObjProp.property (.identKey "handler") v ∉ props) →
      handlerRegistration st it = none) ∧
    lintRuleB "convex/notes.ts" exFile10 = [] := by
  refine ⟨findHandlerIdx_skips, ?_, ?_⟩
  · intro st it n props rest hnode hno
    simp only [handlerRegistration, hnode]
    cases hc : st.authenticatedImports.contains n with
    | false => simp
    | true => simp [findHandlerIdx_skips props 0 hno]
  · have hfn : isAuthFile "convex/notes.ts" = false := by decide
    have hlint : lintRuleB "convex/notes.ts" exFile10 =
        (runOn handlerB initB (preorder exFile10)).2 := by
      simp [lintRuleB, hfn]
    rw [hlint, preorder_exFile10]
    decide

/-- Witness for C10: the concrete string-keyed property list is skipped by
the search and the concrete wrapper call registers nothing. -/
theorem string_key_handler_never_registered_witness :
    findHandlerIdx 0
      [ObjProp.property (.litKey "handler") (.arrowFn [forbiddenCallAst])] = none ∧
    handlerRegistration ⟨["authenticatedQuery"], []⟩
      ⟨[1], .call (.ident "authenticatedQuery")
        [.objectLit [.property (.litKey "handler")
          (.arrowFn [forbiddenCallAst])]], [], false⟩ = none := by
  constructor
  · exact string_key_handler_never_registered.1 _ 0 (by intro v h; simp at h)
  · exact string_key_handler_never_registered.2.1 _ _ "authenticatedQuery" _ [] rfl
      (by intro v h; simp at h)

end ConvexAuth
